import Mathlib

/-!
# Verification development for `send.js` (baby-to-xion)

Shallow embedding of the instruction encoder, the amount converter, the batch
planner and the execution loop of `send.js`, followed by the theorems proved
about them.

JavaScript strings are modelled as `List Char` (a list of Unicode scalar
values).  JavaScript Numbers are IEEE-754 binary64 values; the conversions the
program applies to them are modelled exactly, with round-to-nearest-even.
-/

namespace Send

/-! ## Strings, buffers and hex -/

/-- UTF-16 code units taken by one character: what it adds to a JS `length`. -/
def utf16Size (c : Char) : Nat :=
  if c.val.toNat < 0x10000 then 1 else 2

/-- The JS `str.length`: the number of UTF-16 code units of the string. -/
def jsLength : List Char → Nat
  | [] => 0
  | c :: cs => utf16Size c + jsLength cs

/-- UTF-8 encoding of one character, as a list of byte values. -/
def utf8Bytes (c : Char) : List Nat :=
  let v := c.val.toNat
  if v < 0x80 then [v]
  else if v < 0x800 then [0xC0 + v / 64, 0x80 + v % 64]
  else if v < 0x10000 then [0xE0 + v / 4096, 0x80 + v / 64 % 64, 0x80 + v % 64]
  else [0xF0 + v / 262144, 0x80 + v / 4096 % 64, 0x80 + v / 64 % 64, 0x80 + v % 64]

/-- The bytes of `Buffer.from(str)`: the UTF-8 encoding of the string. -/
def bufferFrom : List Char → List Nat
  | [] => []
  | c :: cs => utf8Bytes c ++ bufferFrom cs

/-- The string of `buf.toString("hex")`: two lowercase hex digits per byte. -/
def toStringHex : List Nat → List Char
  | [] => []
  | b :: bs => Nat.digitChar (b / 16) :: Nat.digitChar (b % 16) :: toStringHex bs

/-- The string of `str.padEnd(target, "0")` for a string of BMP characters: zeros are
appended up to `target` characters, and a longer string is returned unchanged. -/
def padEnd (s : List Char) (target : Nat) : List Char :=
  s ++ List.replicate (target - s.length) '0'

/-- The string of `str.repeat(n)`. -/
def jsRepeat (s : List Char) : Nat → List Char
  | 0 => []
  | n + 1 => s ++ jsRepeat s n

/-! ## Numbers -/

/-- Halving loop behind `floorLog2`; `fuel` bounds the number of halvings. -/
def log2Loop : Nat → Nat → Nat
  | 0, _ => 0
  | fuel + 1, n => if 2 ≤ n then log2Loop fuel (n / 2) + 1 else 0

/-- Index of the highest set bit of `n`, that is `⌊log₂ n⌋` for `n > 0`. -/
def floorLog2 (n : Nat) : Nat := log2Loop n n

/-- The JS `Number(d)` for a non-negative integer `d` (given as a decimal string, a
BigInt or a Number): the nearest binary64 value, ties to even.  Integers below `2^53`
are exact; `none` stands for `Infinity`. -/
def numberOfNat (n : Nat) : Option Nat :=
  if n < 2 ^ 53 then some n
  else
    let e := floorLog2 n - 52
    let q := n / 2 ^ e
    let r := n % 2 ^ e
    let half := 2 ^ (e - 1)
    let m := if r < half ∨ (r = half ∧ q % 2 = 0) then q else q + 1
    if m * 2 ^ e < 2 ^ 1024 then some (m * 2 ^ e) else none

/-- The JS `x.toString(16)` of an integral non-negative Number (`none` is `Infinity`):
its base-16 expansion with lowercase digits.  The expansion is exact up to `2^53`;
above, where engines may approximate the low digits, only its length is relied on. -/
def toString16 : Option Nat → List Char
  | some x => Nat.toDigits 16 x
  | none => "Infinity".data

/-! ## Instruction encoder (`send.js`, lines 44-117) -/

/-- The `while (hex.length < padding) hex = "0" + hex` loop of `decimalToHex`. -/
def padLoop (hex : List Char) (padding : Nat) : List Char :=
  if hex.length < padding then padLoop ('0' :: hex) padding else hex
termination_by padding - hex.length
decreasing_by simp only [List.length_cons]; omega

/-- The function `decimalToHex(d, padding)`: `Number(d).toString(16)`, left-padded with
zeros while it is shorter than `padding`. -/
def decimalToHex (d : Nat) (padding : Nat) : List Char :=
  padLoop (toString16 (numberOfNat d)) padding

/-- The function `encodeAddressForInstruction(addrStr)`: the length word followed by
the hex of the bytes, padded at the end with zeros to 128 hex characters. -/
def encodeAddressForInstruction (addrStr : List Char) : List Char :=
  let lenHex := decimalToHex (jsLength addrStr) 64
  let valHex := toStringHex (bufferFrom addrStr)
  let paddedValHex := padEnd valHex 128
  lenHex ++ paddedValHex

/-- The constant `INSTRUCTION_PREFIX_CONST`. -/
def INSTRUCTION_PREFIX_CONST : List Char :=
  "00000000000000000000000000000000000000000000000000000000000000000000000000000000000000000000000000000000000000000000000000000002000000000000000000000000000000000000000000000000000000000000006000000000000000000000000000000000000000000000000000000000000004000000000000000000000000000000000000000000000000000000000000000020000000000000000000000000000000000000000000000000000000000000000100000000000000000000000000000000000000000000000000000000000000200000000000000000000000000000000000000000000000000000000000000001000000000000000000000000000000000000000000000000000000000000000300000000000000000000000000000000000000000000000000000000000000600000000000000000000000000000000000000000000000000000000000000320000000000000000000000000000000000000000000000000000000000000014000000000000000000000000000000000000000000000000000000000000001a00000000000000000000000000000000000000000000000000000000000000200".data

/-- The constant `INSTRUCTION_MIDDLE_CONST`. -/
def INSTRUCTION_MIDDLE_CONST : List Char :=
  "000000000000000000000000000000000000000000000000000000000000024000000000000000000000000000000000000000000000000000000000000002800000000000000000000000000000000000000000000000000000000000000006000000000000000000000000000000000000000000000000000000000000000000000000000000000000000000000000000000000000000000000000000002c0".data

/-- The constant `DENOM_UBBN_ENCODED`. -/
def DENOM_UBBN_ENCODED : List Char :=
  "0000000000000000000000000000000000000000000000000000000000000004".data ++
    padEnd (toStringHex (bufferFrom "ubbn".data)) 64

/-- The constant `DENOMS_BLOCK_CONST`. -/
def DENOMS_BLOCK_CONST : List Char :=
  jsRepeat DENOM_UBBN_ENCODED 3

/-- The constant `BBN_TO_UBBN_MULTIPLIER`. -/
def BBN_TO_UBBN_MULTIPLIER : Nat := 1000000

/-- The function `constructDynamicInstruction(amount, primary, secondary, tertiary)`. -/
def constructDynamicInstruction (amount : Nat)
    (primaryAddress secondaryAddress tertiaryAddress : List Char) : List Char :=
  let hexAmount := decimalToHex amount 64
  let encodedAddr1 := encodeAddressForInstruction primaryAddress
  let encodedAddr2 := encodeAddressForInstruction secondaryAddress
  let encodedAddr3 := encodeAddressForInstruction tertiaryAddress
  let instructionHex :=
    INSTRUCTION_PREFIX_CONST ++ hexAmount ++ INSTRUCTION_MIDDLE_CONST ++ hexAmount ++
      encodedAddr1 ++ encodedAddr2 ++ DENOMS_BLOCK_CONST ++ encodedAddr3
  "0x".data ++ instructionHex


/-! ## Amount converter (`send.js`, lines 119-131) -/

/-- A JS Number: `NaN`, an infinity, or a finite value `± num / den`.  Binary64 values
have a power of two as `den`. -/
inductive JSNumber where
  | nan
  | infinity (negative : Bool)
  | finite (negative : Bool) (num den : Nat)
  deriving DecidableEq

/-- An integral JS Number, as returned by `Math.floor`. -/
inductive JSIntegral where
  | nan
  | infinity (negative : Bool)
  | int (negative : Bool) (magnitude : Nat)
  deriving DecidableEq

/-- The integer `⌊log₂ (n / d)⌋` for positive `n` and `d`. -/
def floorLog2Ratio (n d : Nat) : Int :=
  let a := floorLog2 n
  let b := floorLog2 d
  if b ≤ a then
    if d * 2 ^ (a - b) ≤ n then (a : Int) - b else (a : Int) - b - 1
  else
    if d ≤ n * 2 ^ (b - a) then (a : Int) - b else (a : Int) - b - 1

/-- The binary64 value nearest to `± n / d`, ties to even, with gradual underflow and
overflow to infinity: the rounding of every JS arithmetic result. -/
def roundBinary64 (negative : Bool) (n d : Nat) : JSNumber :=
  if n = 0 then JSNumber.finite negative 0 1
  else
    let u : Int := max (floorLog2Ratio n d - 52) (-1074)
    let N := if u < 0 then n * 2 ^ (-u).toNat else n
    let D := if u < 0 then d else d * 2 ^ u.toNat
    let q := N / D
    let r := N % D
    let m := if 2 * r < D ∨ (2 * r = D ∧ q % 2 = 0) then q else q + 1
    if u < 0 then JSNumber.finite negative m (2 ^ (-u).toNat)
    else if m * 2 ^ u.toNat < 2 ^ 1024 then JSNumber.finite negative (m * 2 ^ u.toNat) 1
    else JSNumber.infinity negative

/-- The characters `parseFloat` skips at the start: white space and line terminators. -/
def isStrWhiteSpaceChar (c : Char) : Bool :=
  let v := c.val.toNat
  v = 9 ∨ v = 10 ∨ v = 11 ∨ v = 12 ∨ v = 13 ∨ v = 32 ∨ v = 0xA0 ∨ v = 0x1680 ∨
    (0x2000 ≤ v ∧ v ≤ 0x200A) ∨ v = 0x2028 ∨ v = 0x2029 ∨ v = 0x202F ∨ v = 0x205F ∨
    v = 0x3000 ∨ v = 0xFEFF

/-- Removal of the leading white space. -/
def trimStart : List Char → List Char
  | [] => []
  | c :: cs => if isStrWhiteSpaceChar c then trimStart cs else c :: cs

/-- A decimal digit `0-9`. -/
def isDecimalDigit (c : Char) : Bool :=
  48 ≤ c.val.toNat ∧ c.val.toNat ≤ 57

/-- The longest run of decimal digits at the start of the string, and what follows it. -/
def spanDigits : List Char → List Char × List Char
  | [] => ([], [])
  | c :: cs =>
    if isDecimalDigit c then ((spanDigits cs).1.cons c, (spanDigits cs).2) else ([], c :: cs)

/-- Value of a run of decimal digits. -/
def decimalValue (ds : List Char) : Nat :=
  ds.foldl (fun acc c => acc * 10 + (c.val.toNat - 48)) 0

/-- The exponent of an `ExponentPart` at the start of the string (`e` or `E`, an optional
sign, at least one digit); `0` when the string does not start with one. -/
def exponentPart : List Char → Int
  | [] => 0
  | c :: cs =>
    if c = 'e' ∨ c = 'E' then
      match cs with
      | '+' :: r => (decimalValue (spanDigits r).1 : Int)
      | '-' :: r => - (decimalValue (spanDigits r).1 : Int)
      | r => (decimalValue (spanDigits r).1 : Int)
    else 0

/-- The unsigned part of `parseFloat`: the longest `StrUnsignedDecimalLiteral` at the
start of the string, rounded to binary64; `NaN` when there is none. -/
def parseUnsigned (negative : Bool) (t : List Char) : JSNumber :=
  if t.take 8 = "Infinity".data then JSNumber.infinity negative
  else
    let intDigits := (spanDigits t).1
    let afterInt := (spanDigits t).2
    let fracDigits := match afterInt with
      | '.' :: r => (spanDigits r).1
      | _ => []
    let afterFrac := match afterInt with
      | '.' :: r => (spanDigits r).2
      | _ => afterInt
    if intDigits = [] ∧ fracDigits = [] then JSNumber.nan
    else
      let mantissa := decimalValue (intDigits ++ fracDigits)
      let exponent : Int := exponentPart afterFrac - fracDigits.length
      if exponent < 0 then roundBinary64 negative mantissa (10 ^ (-exponent).toNat)
      else roundBinary64 negative (mantissa * 10 ^ exponent.toNat) 1

/-- The JS `parseFloat(string)`. -/
def parseFloat (s : List Char) : JSNumber :=
  match trimStart s with
  | '-' :: t => parseUnsigned true t
  | '+' :: t => parseUnsigned false t
  | t => parseUnsigned false t

/-- The JS `isNaN(x)`. -/
def isNaN : JSNumber → Bool
  | JSNumber.nan => true
  | _ => false

/-- The JS comparison `x <= 0`. -/
def leZero : JSNumber → Bool
  | JSNumber.nan => false
  | JSNumber.infinity negative => negative
  | JSNumber.finite negative num _ => negative || num = 0

/-- The JS product `x * k` for a positive integer constant `k`. -/
def mulNat : JSNumber → Nat → JSNumber
  | JSNumber.nan, _ => JSNumber.nan
  | JSNumber.infinity negative, _ => JSNumber.infinity negative
  | JSNumber.finite negative num den, k => roundBinary64 negative (num * k) den

/-- The JS `Math.floor(x)`. -/
def mathFloor : JSNumber → JSIntegral
  | JSNumber.nan => JSIntegral.nan
  | JSNumber.infinity negative => JSIntegral.infinity negative
  | JSNumber.finite false num den => JSIntegral.int false (num / den)
  | JSNumber.finite true num den => JSIntegral.int true ((num + den - 1) / den)

/-- Whether the decimal `s * 10 ^ j` rounds to the integral binary64 value `v`. -/
def readsBack (v s j : Nat) : Bool :=
  match roundBinary64 false (s * 10 ^ j) 1 with
  | JSNumber.finite _ num den => num = v * den
  | _ => false

/-- Search of `Number::toString` for the shortest digits: the least `k`, tried upwards,
for which some `k`-digit `s` has `s * 10 ^ (n - k)` rounding to `v`; returns `(s, n)`,
the closest such `s` (the even one on a tie).  `len` is the number of decimal digits of
`v`. -/
def shortestLoop (v len : Nat) : Nat → Nat → Nat × Nat
  | 0, _ => (v, len)
  | fuel + 1, k =>
    let j := len - k
    let s0 := v / 10 ^ j
    let up := if s0 + 1 < 10 ^ k then (s0 + 1, len) else (10 ^ (k - 1), len + 1)
    let okLow := readsBack v s0 j
    let okUp := readsBack v (s0 + 1) j
    let dLow := v - s0 * 10 ^ j
    let dUp := (s0 + 1) * 10 ^ j - v
    if okLow ∧ okUp then
      if dLow < dUp ∨ (dLow = dUp ∧ s0 % 2 = 0) then (s0, len) else up
    else if okLow then (s0, len)
    else if okUp then up
    else shortestLoop v len fuel (k + 1)

/-- The decimal string of `Number::toString` for a positive integral binary64 value:
the shortest digits followed by zeros up to `10^21`, exponent notation from there. -/
def integralDigits (v : Nat) : List Char :=
  let len := (Nat.toDigits 10 v).length
  let sn := shortestLoop v len len 1
  let ds := Nat.toDigits 10 sn.1
  let n := sn.2
  if n ≤ 21 then ds ++ List.replicate (n - ds.length) '0'
  else if ds.length = 1 then ds ++ "e+".data ++ Nat.toDigits 10 (n - 1)
  else ds.take 1 ++ '.' :: ds.drop 1 ++ "e+".data ++ Nat.toDigits 10 (n - 1)

/-- The JS `x.toString()` of an integral Number. -/
def numberToString : JSIntegral → List Char
  | JSIntegral.nan => "NaN".data
  | JSIntegral.infinity false => "Infinity".data
  | JSIntegral.infinity true => "-Infinity".data
  | JSIntegral.int _ 0 => "0".data
  | JSIntegral.int false (v + 1) => integralDigits (v + 1)
  | JSIntegral.int true (v + 1) => '-' :: integralDigits (v + 1)

/-- The function `convertToMicroBBN(humanAmount)`; `Except.error` carries the message of
the thrown `Error`. -/
def convertToMicroBBN (humanAmount : List Char) : Except (List Char) (List Char) :=
  let bbnAmount := parseFloat humanAmount
  if isNaN bbnAmount || leZero bbnAmount then
    Except.error ("Invalid amount: ".data ++ humanAmount)
  else
    let ubbnAmount := mathFloor (mulNat bbnAmount BBN_TO_UBBN_MULTIPLIER)
    Except.ok (numberToString ubbnAmount)

/-! ## Batch planner (`main`, lines 340-587) -/

/-- An entry of `walletAddresses`: the signer (identified by its mnemonic), its two
addresses and its 1-based index. -/
structure Wallet where
  wallet : List Char
  primaryAddress : List Char
  secondaryAddress : List Char
  index : Nat
  deriving DecidableEq

/-- An entry of `txGenericParams`: one planned transaction. -/
structure TxParams where
  wallet : Wallet
  amount : List Char
  humanAmount : List Char
  denom : List Char
  primary : List Char
  secondary : List Char
  tertiary : List Char
  channel_id : Nat
  timeout_offset_ms : Nat
  memo : List Char
  roundNumber : Option Nat
  walletNumber : Option Nat
  deriving DecidableEq

/-- The constant `DEFAULT_TX_AMOUNT`. -/
def DEFAULT_TX_AMOUNT : List Char := "0.001".data

/-- The constant `DEFAULT_TX_DENOM`. -/
def DEFAULT_TX_DENOM : List Char := "ubbn".data

/-- The constant `DEFAULT_TX_TERTIARY_ADDRESS`. -/
def DEFAULT_TX_TERTIARY_ADDRESS : List Char :=
  "xion1j0hp6qztgaza7t0y8dvc22eavvvqyds3kze58dlqkulys8r2kc8s9mp0sm".data

/-- The constant `DEFAULT_CHANNEL_ID`. -/
def DEFAULT_CHANNEL_ID : Nat := 4

/-- The constant `DEFAULT_TIMEOUT_OFFSET_HOURS`. -/
def DEFAULT_TIMEOUT_OFFSET_HOURS : Nat := 72

/-- The constant `DEFAULT_MEMO`. -/
def DEFAULT_MEMO : List Char := []

/-- The wallet set-up loop of `main` (lines 344-363): wallet `i` (0-based) gets the
addresses derived from its mnemonic and the index `i + 1`.  The derivation is the
external wallet capability, taken as the function `derive`. -/
def setupLoop (derive : List Char → List Char × List Char) :
    List (List Char) → Nat → List Wallet → List Wallet
  | [], _, walletAddresses => walletAddresses
  | mnemonic :: rest, i, walletAddresses =>
    setupLoop derive rest (i + 1)
      (walletAddresses ++
        [Wallet.mk mnemonic (derive mnemonic).fst (derive mnemonic).snd (i + 1)])

/-- The list `walletAddresses` after the set-up loop. -/
def setupWallets (derive : List Char → List Char × List Char)
    (mnemonics : List (List Char)) : List Wallet :=
  setupLoop derive mnemonics 0 []

/-- The JS `answer || DEFAULT_TX_AMOUNT`: an empty answer falls back to the default. -/
def orDefault (answer : List Char) : List Char :=
  if answer = [] then DEFAULT_TX_AMOUNT else answer

/-- The object pushed by the single-wallet loop (lines 497-510). -/
def singleSpec (selectedWallet : Wallet) (convertedAmount humanAmount : List Char) :
    TxParams :=
  { wallet := selectedWallet, amount := convertedAmount, humanAmount := humanAmount,
    denom := DEFAULT_TX_DENOM, primary := selectedWallet.primaryAddress,
    secondary := selectedWallet.secondaryAddress, tertiary := DEFAULT_TX_TERTIARY_ADDRESS,
    channel_id := DEFAULT_CHANNEL_ID,
    timeout_offset_ms := DEFAULT_TIMEOUT_OFFSET_HOURS * 60 * 60 * 1000,
    memo := DEFAULT_MEMO, roundNumber := none, walletNumber := none }

/-- The single-wallet configuration loop (lines 472-515), from transaction `i` with
`remaining` transactions to go; `answers j` is the answer to the amount prompt of
transaction `j`.  `none` is the early `return` of `main` on a conversion error. -/
def singleWalletLoop (selectedWallet : Wallet) (answers : Nat → List Char) :
    Nat → Nat → List TxParams → Option (List TxParams)
  | 0, _, txGenericParams => some txGenericParams
  | remaining + 1, i, txGenericParams =>
    let humanAmount := orDefault (answers i)
    match convertToMicroBBN humanAmount with
    | Except.error _ => none
    | Except.ok convertedAmount =>
      singleWalletLoop selectedWallet answers remaining (i + 1)
        (txGenericParams ++ [singleSpec selectedWallet convertedAmount humanAmount])

/-- Single-wallet planning (lines 459-515).  `numTransactions` is the result of
`parseInt` (`none` for `NaN`); `none` is returned when `main` returns early. -/
def planSingleWallet (walletAddresses : List Wallet) (numTransactions : Option Int)
    (answers : Nat → List Char) : Option (List TxParams) :=
  match numTransactions, walletAddresses with
  | some n, selectedWallet :: _ =>
    if n ≤ 0 then none else singleWalletLoop selectedWallet answers n.toNat 0 []
  | _, _ => none

/-- The memo of the multi-wallet loop: `Round <round + 1> - Wallet <index>`. -/
def roundMemo (round index : Nat) : List Char :=
  "Round ".data ++ Nat.toDigits 10 (round + 1) ++ " - Wallet ".data ++ Nat.toDigits 10 index

/-- The object pushed by the multi-wallet loop (lines 565-580). -/
def multiSpec (selectedWallet : Wallet) (round : Nat)
    (convertedAmount humanAmount : List Char) : TxParams :=
  { wallet := selectedWallet, amount := convertedAmount, humanAmount := humanAmount,
    denom := DEFAULT_TX_DENOM, primary := selectedWallet.primaryAddress,
    secondary := selectedWallet.secondaryAddress, tertiary := DEFAULT_TX_TERTIARY_ADDRESS,
    channel_id := DEFAULT_CHANNEL_ID,
    timeout_offset_ms := DEFAULT_TIMEOUT_OFFSET_HOURS * 60 * 60 * 1000,
    memo := roundMemo round selectedWallet.index,
    roundNumber := some (round + 1), walletNumber := some selectedWallet.index }

/-- The inner loop over `walletIdx` (lines 558-581), over the wallets still to visit. -/
def walletLoop (round : Nat) (convertedAmount humanAmount : List Char) :
    List Wallet → List TxParams → List TxParams
  | [], txGenericParams => txGenericParams
  | selectedWallet :: rest, txGenericParams =>
    walletLoop round convertedAmount humanAmount rest
      (txGenericParams ++ [multiSpec selectedWallet round convertedAmount humanAmount])

/-- The outer loop over `round` (lines 557-582), with `remaining` rounds to go. -/
def roundLoop (walletAddresses : List Wallet) (convertedAmount humanAmount : List Char) :
    Nat → Nat → List TxParams → List TxParams
  | 0, _, txGenericParams => txGenericParams
  | remaining + 1, round, txGenericParams =>
    roundLoop walletAddresses convertedAmount humanAmount remaining (round + 1)
      (walletLoop round convertedAmount humanAmount walletAddresses txGenericParams)

/-- Multi-wallet planning (lines 516-587).  `numRounds` is the result of `parseInt`
(`none` for `NaN`), `answer` the answer to the amount prompt; `none` is returned when
`main` returns early. -/
def planMultiWallet (walletAddresses : List Wallet) (numRounds : Option Int)
    (answer : List Char) : Option (List TxParams) :=
  match numRounds with
  | none => none
  | some n =>
    if n ≤ 0 then none
    else
      let humanAmount := orDefault answer
      match convertToMicroBBN humanAmount with
      | Except.error _ => none
      | Except.ok convertedAmount =>
        some (roundLoop walletAddresses convertedAmount humanAmount n.toNat 0 [])

/-- The planning step of `main`: single-wallet mode when there is one wallet,
multi-wallet mode otherwise.  `count` is the parsed transaction or round count. -/
def plan (walletAddresses : List Wallet) (count : Option Int) (answers : Nat → List Char) :
    Option (List TxParams) :=
  if walletAddresses.length = 1 then planSingleWallet walletAddresses count answers
  else planMultiWallet walletAddresses count (answers 0)

/-! ## Execution loop (`main`, lines 589-668) -/

/-- What the execution loop does, in order. -/
inductive Event where
  | attempt (i : Nat) (params : TxParams) (succeeded : Bool)
  | cooldown (i : Nat)
  deriving DecidableEq

/-- The execution loop (lines 594-666) from index `i`, over the specs still to run;
`total` is `txGenericParams.length`.  `connectFails i` tells whether rebinding the
client before spec `i` throws (outside the inner `try`, so the run ends);
`succeeds i` tells whether `executeContractSendTransaction` returns for spec `i`.  The
cooldown sits inside the `try`, after the awaited transaction. -/
def executionLoop (total : Nat) (connectFails succeeds : Nat → Bool) :
    List TxParams → Nat → List Event
  | [], _ => []
  | params :: rest, i =>
    if connectFails i then []
    else if succeeds i then
      if i < total - 1 then
        Event.attempt i params true :: Event.cooldown i ::
          executionLoop total connectFails succeeds rest (i + 1)
      else
        Event.attempt i params true :: executionLoop total connectFails succeeds rest (i + 1)
    else
      Event.attempt i params false :: executionLoop total connectFails succeeds rest (i + 1)

/-- The run of `main` after set-up: planning, then the execution loop over the plan;
no event at all when planning returns early. -/
def run (walletAddresses : List Wallet) (count : Option Int) (answers : Nat → List Char)
    (connectFails succeeds : Nat → Bool) : List Event :=
  match plan walletAddresses count answers with
  | none => []
  | some txGenericParams =>
    executionLoop txGenericParams.length connectFails succeeds txGenericParams 0

/-- The attempts of a run, in order: the spec and whether it succeeded. -/
def attempts : List Event → List (TxParams × Bool)
  | [] => []
  | Event.attempt _ params succeeded :: rest => (params, succeeded) :: attempts rest
  | Event.cooldown _ :: rest => attempts rest

/-- Number of attempts of a run with the given result. -/
def countResult (succeeded : Bool) (events : List Event) : Nat :=
  ((attempts events).filter (fun a => a.2 == succeeded)).length

/-! ## Transaction builder (`send.js`, lines 172-243) -/

/-- The JS sum `a + b` of two integral Numbers, given by their integer values: the
binary64 nearest to the exact sum. -/
def addIntegral (a b : Int) : JSIntegral :=
  match numberOfNat (a + b).natAbs with
  | some v => JSIntegral.int (decide (a + b < 0)) v
  | none => JSIntegral.infinity (decide (a + b < 0))

/-- The `timeout_timestamp` of `executeContractSendTransaction` (lines 186-193):
`(Date.now() + timeout_offset_ms).toString() + "000000"`, where `timeout_offset_ms`
defaults to one hour when `txParams` has none.  `now` is the value of `Date.now()`. -/
def timeout_timestamp (now : Nat) (timeout_offset_ms : Option Int) : List Char :=
  numberToString (addIntegral now (timeout_offset_ms.getD (60 * 60 * 1000))) ++ "000000".data
/-! ## Decoders used to state the properties -/

/-- Value of one lowercase hex digit (0 for any other character). -/
def hexDigitValue (c : Char) : Nat :=
  let v := c.val.toNat
  if 48 ≤ v ∧ v ≤ 57 then v - 48
  else if 97 ≤ v ∧ v ≤ 102 then v - 87
  else 0

/-- Big-endian unsigned value of a string of hex digits. -/
def hexValue (s : List Char) : Nat :=
  s.foldl (fun acc c => acc * 16 + hexDigitValue c) 0

/-- One of the sixteen lowercase hex digits `0-9a-f`. -/
def isLowerHex (c : Char) : Prop :=
  (48 ≤ c.val.toNat ∧ c.val.toNat ≤ 57) ∨ (97 ≤ c.val.toNat ∧ c.val.toNat ≤ 102)

instance (c : Char) : Decidable (isLowerHex c) := by
  unfold isLowerHex; infer_instance

/-- Every character of the string is an ASCII character (code below 128). -/
def isAscii (s : List Char) : Prop :=
  ∀ c ∈ s, c.val.toNat < 128

instance (s : List Char) : Decidable (isAscii s) := by
  unfold isAscii; infer_instance


/-- The wallets appended by `setupLoop` from index `i` on. -/
def setupBlock (derive : List Char → List Char × List Char) : List (List Char) → Nat → List Wallet
  | [], _ => []
  | mnemonic :: rest, i =>
    Wallet.mk mnemonic (derive mnemonic).fst (derive mnemonic).snd (i + 1) ::
      setupBlock derive rest (i + 1)

/-- The specs appended by `roundLoop` over `remaining` rounds from round `round` on. -/
def roundBlock (walletAddresses : List Wallet) (convertedAmount humanAmount : List Char) :
    Nat → Nat → List TxParams
  | 0, _ => []
  | remaining + 1, round =>
    walletAddresses.map (fun w => multiSpec w round convertedAmount humanAmount) ++
      roundBlock walletAddresses convertedAmount humanAmount remaining (round + 1)
/-! ## Lemmas on padding and digits -/

theorem padLoop_eq (hex : List Char) (padding : Nat) :
    padLoop hex padding = List.replicate (padding - hex.length) '0' ++ hex := by
  generalize hk : padding - hex.length = k
  induction k generalizing hex with
  | zero =>
    rw [padLoop, if_neg (by omega)]; simp
  | succ k ih =>
    rw [padLoop, if_pos (by omega), ih ('0' :: hex) (by simp only [List.length_cons]; omega)]
    rw [List.replicate_succ', List.append_assoc]; rfl

theorem length_padLoop (hex : List Char) (padding : Nat) :
    (padLoop hex padding).length = max hex.length padding := by
  rw [padLoop_eq]; simp only [List.length_append, List.length_replicate]; omega

theorem digitChar_isLowerHex (k : Nat) (hk : k < 16) : isLowerHex (Nat.digitChar k) := by
  interval_cases k <;> decide

theorem hexDigitValue_digitChar (k : Nat) (hk : k < 16) :
    hexDigitValue (Nat.digitChar k) = k := by
  interval_cases k <;> decide

theorem toDigitsCore_append (fuel n : Nat) (acc : List Char) :
    Nat.toDigitsCore 16 fuel n acc = Nat.toDigitsCore 16 fuel n [] ++ acc := by
  induction fuel generalizing n acc with
  | zero => simp [Nat.toDigitsCore]
  | succ f ih =>
    simp only [Nat.toDigitsCore]
    split
    · simp
    · rw [ih (n / 16) (_ :: acc), ih (n / 16) [_]]; simp

theorem toDigitsCore_succ (fuel n : Nat) :
    Nat.toDigitsCore 16 (fuel + 1) n [] =
      (if n / 16 = 0 then [] else Nat.toDigitsCore 16 fuel (n / 16) []) ++
        [Nat.digitChar (n % 16)] := by
  simp only [Nat.toDigitsCore]
  split
  · simp
  · rw [toDigitsCore_append]

theorem hexValue_append_singleton (s : List Char) (c : Char) :
    hexValue (s ++ [c]) = hexValue s * 16 + hexDigitValue c := by
  simp [hexValue, List.foldl_append]

theorem hexValue_toDigitsCore (fuel n : Nat) (h : n < fuel) :
    hexValue (Nat.toDigitsCore 16 fuel n []) = n := by
  induction fuel generalizing n with
  | zero => omega
  | succ f ih =>
    rw [toDigitsCore_succ, hexValue_append_singleton,
      hexDigitValue_digitChar _ (Nat.mod_lt _ (by decide))]
    split
    · rename_i h0
      simp only [hexValue, List.foldl_nil]; omega
    · rename_i h0
      rw [ih (n / 16) (by omega)]; omega

theorem hexValue_toDigits (n : Nat) : hexValue (Nat.toDigits 16 n) = n :=
  hexValue_toDigitsCore (n + 1) n (by omega)

theorem isLowerHex_toDigitsCore (fuel n : Nat) :
    ∀ c ∈ Nat.toDigitsCore 16 fuel n [], isLowerHex c := by
  induction fuel generalizing n with
  | zero => simp [Nat.toDigitsCore]
  | succ f ih =>
    rw [toDigitsCore_succ]
    intro c hc
    rw [List.mem_append] at hc
    rcases hc with hc | hc
    · split at hc
      · simp at hc
      · exact ih _ c hc
    · rw [List.mem_singleton] at hc
      subst hc
      exact digitChar_isLowerHex _ (Nat.mod_lt _ (by decide))

theorem isLowerHex_toDigits (n : Nat) : ∀ c ∈ Nat.toDigits 16 n, isLowerHex c :=
  isLowerHex_toDigitsCore (n + 1) n

theorem length_toDigits_le (n e : Nat) (h : n < 16 ^ e) (he : 0 < e) :
    (Nat.toDigits 16 n).length ≤ e :=
  Nat.toDigitsCore_length 16 (by decide) (n + 1) n e h he

theorem hexValue_replicate_zero_append (k : Nat) (s : List Char) :
    hexValue (List.replicate k '0' ++ s) = hexValue s := by
  induction k with
  | zero => simp
  | succ k ih =>
    rw [List.replicate_succ, List.cons_append]
    have h0 : 0 * 16 + hexDigitValue '0' = 0 := by decide
    have : hexValue ('0' :: (List.replicate k '0' ++ s)) =
        hexValue (List.replicate k '0' ++ s) := by
      simp only [hexValue, List.foldl_cons, h0]
    rw [this, ih]

/-! ## Lemmas on `Number(d)` -/

set_option exponentiation.threshold 2048

theorem log2Loop_eq (fuel n : Nat) (h : n ≤ fuel) : log2Loop fuel n = Nat.log2 n := by
  induction fuel generalizing n with
  | zero =>
    have : n = 0 := by omega
    subst this
    rw [Nat.log2]; simp [log2Loop]
  | succ f ih =>
    rw [Nat.log2, log2Loop]
    split
    · rw [ih (n / 2) (by omega)]
    · rfl

theorem floorLog2_eq (n : Nat) : floorLog2 n = Nat.log2 n :=
  log2Loop_eq n n (Nat.le_refl n)

theorem numberOfNat_of_lt (n : Nat) (h : n < 2 ^ 53) : numberOfNat n = some n := by
  unfold numberOfNat; rw [if_pos h]

theorem numberOfNat_of_le (n : Nat) (h : n ≤ 2 ^ 53) : numberOfNat n = some n := by
  rcases Nat.lt_or_ge n (2 ^ 53) with h1 | h1
  · exact numberOfNat_of_lt n h1
  · have : n = 2 ^ 53 := Nat.le_antisymm h h1
    subst this; decide

theorem numberOfNat_lt (n : Nat) (h : n < 2 ^ 256 - 2 ^ 202) :
    ∃ x, numberOfNat n = some x ∧ x < 2 ^ 256 := by
  rcases Nat.lt_or_ge n (2 ^ 53) with h1 | h1
  · exact ⟨n, numberOfNat_of_lt n h1, by omega⟩
  · have hn0 : n ≠ 0 := by
      have : 0 < 2 ^ 53 := Nat.two_pow_pos _
      omega
    have hlo : 2 ^ n.log2 ≤ n := Nat.log2_self_le hn0
    have hhi : n < 2 ^ (n.log2 + 1) := Nat.lt_log2_self
    have hL1 : 53 ≤ n.log2 := by
      by_contra hc
      have : n.log2 + 1 ≤ 53 := by omega
      have := Nat.pow_le_pow_right (by decide : 0 < 2) this
      omega
    have hL2 : n.log2 < 256 := (Nat.log2_lt hn0).2 (by omega)
    unfold numberOfNat
    rw [if_neg (by omega), floorLog2_eq]
    simp only []
    generalize hm : (if n % 2 ^ (n.log2 - 52) < 2 ^ (n.log2 - 52 - 1) ∨
      (n % 2 ^ (n.log2 - 52) = 2 ^ (n.log2 - 52 - 1) ∧ n / 2 ^ (n.log2 - 52) % 2 = 0)
      then n / 2 ^ (n.log2 - 52) else n / 2 ^ (n.log2 - 52) + 1) = m
    have hq : n / 2 ^ (n.log2 - 52) < 2 ^ 53 := by
      rw [Nat.div_lt_iff_lt_mul (Nat.two_pow_pos _)]
      rw [← Nat.pow_add]
      have : 53 + (n.log2 - 52) = n.log2 + 1 := by omega
      rw [this]; exact hhi
    have hmle : m ≤ 2 ^ 53 := by
      rw [← hm]; split <;> omega
    have hbound : m * 2 ^ (n.log2 - 52) < 2 ^ 256 := by
      rcases Nat.lt_or_ge n.log2 255 with h2 | h2
      · have h3 : m * 2 ^ (n.log2 - 52) ≤ 2 ^ 53 * 2 ^ (n.log2 - 52) :=
          Nat.mul_le_mul_right _ hmle
        rw [← Nat.pow_add] at h3
        have h4 : 2 ^ (53 + (n.log2 - 52)) ≤ 2 ^ 255 :=
          Nat.pow_le_pow_right (by decide) (by omega)
        have h5 : (2 : Nat) ^ 255 < 2 ^ 256 := by norm_num
        omega
      · have hL : n.log2 = 255 := by omega
        rw [hL] at hm hq ⊢
        norm_num at hm hq h ⊢
        rw [← hm]
        split <;> omega
    have hlt : m * 2 ^ (n.log2 - 52) < 2 ^ 1024 := by
      have : (2 : Nat) ^ 256 < 2 ^ 1024 := by norm_num
      omega
    rw [if_pos hlt]
    exact ⟨_, rfl, hbound⟩
/-! ## Lemmas on the encoder -/

theorem jsLength_of_isAscii (s : List Char) (h : isAscii s) : jsLength s = s.length := by
  induction s with
  | nil => rfl
  | cons c cs ih =>
    have hc : c.val.toNat < 128 := h c (List.mem_cons_self _ _)
    have hcs : isAscii cs := fun d hd => h d (List.mem_cons_of_mem _ hd)
    simp only [jsLength, utf16Size, List.length_cons, ih hcs]
    rw [if_pos (by omega)]; omega

theorem bufferFrom_of_isAscii (s : List Char) (h : isAscii s) :
    bufferFrom s = s.map (fun c => c.val.toNat) := by
  induction s with
  | nil => rfl
  | cons c cs ih =>
    have hc : c.val.toNat < 128 := h c (List.mem_cons_self _ _)
    have hcs : isAscii cs := fun d hd => h d (List.mem_cons_of_mem _ hd)
    simp only [bufferFrom, utf8Bytes, List.map_cons, ih hcs]
    rw [if_pos hc]; rfl

theorem length_bufferFrom_of_isAscii (s : List Char) (h : isAscii s) :
    (bufferFrom s).length = s.length := by
  rw [bufferFrom_of_isAscii s h, List.length_map]

theorem utf8Bytes_lt (c : Char) : ∀ b ∈ utf8Bytes c, b < 256 := by
  have hv : c.val.toNat < 0x110000 := by
    rcases c.valid with h | h
    · have : c.val.toNat < 0xd800 := h
      omega
    · exact h.2
  intro b hb
  simp only [utf8Bytes] at hb
  split at hb
  · simp only [List.mem_singleton] at hb; omega
  · split at hb
    · simp only [List.mem_cons, List.mem_singleton, List.mem_nil_iff, or_false] at hb; omega
    · split at hb
      · simp only [List.mem_cons, List.mem_singleton, List.mem_nil_iff, or_false] at hb; omega
      · simp only [List.mem_cons, List.mem_singleton, List.mem_nil_iff, or_false] at hb; omega

theorem bufferFrom_lt (s : List Char) : ∀ b ∈ bufferFrom s, b < 256 := by
  induction s with
  | nil => simp [bufferFrom]
  | cons c cs ih =>
    intro b hb
    simp only [bufferFrom, List.mem_append] at hb
    rcases hb with hb | hb
    · exact utf8Bytes_lt c b hb
    · exact ih b hb

theorem length_toStringHex (bs : List Nat) : (toStringHex bs).length = 2 * bs.length := by
  induction bs with
  | nil => rfl
  | cons b bs ih => simp only [toStringHex, List.length_cons, ih]; omega

theorem isLowerHex_toStringHex (bs : List Nat) (h : ∀ b ∈ bs, b < 256) :
    ∀ c ∈ toStringHex bs, isLowerHex c := by
  induction bs with
  | nil => simp [toStringHex]
  | cons b bs ih =>
    have hb : b < 256 := h b (List.mem_cons_self _ _)
    intro c hc
    simp only [toStringHex, List.mem_cons] at hc
    rcases hc with hc | hc | hc
    · subst hc; exact digitChar_isLowerHex _ (by omega)
    · subst hc; exact digitChar_isLowerHex _ (Nat.mod_lt _ (by decide))
    · exact ih (fun d hd => h d (List.mem_cons_of_mem _ hd)) c hc

theorem isLowerHex_replicate_zero (k : Nat) : ∀ c ∈ List.replicate k '0', isLowerHex c := by
  intro c hc
  rw [List.eq_of_mem_replicate hc]; decide

/-- The amount or length word: 64 lowercase hex digits holding the rounded value. -/
theorem decimalToHex_word (d x : Nat) (hx : numberOfNat d = some x) (hlt : x < 2 ^ 256) :
    (decimalToHex d 64).length = 64 ∧ (∀ c ∈ decimalToHex d 64, isLowerHex c) ∧
      hexValue (decimalToHex d 64) = x := by
  have h16 : x < 16 ^ 64 := by
    have : (16 : Nat) ^ 64 = 2 ^ 256 := by norm_num
    omega
  have hlen : (Nat.toDigits 16 x).length ≤ 64 := length_toDigits_le x 64 h16 (by decide)
  unfold decimalToHex
  rw [hx, padLoop_eq]
  simp only [toString16]
  refine ⟨?_, ?_, ?_⟩
  · simp only [List.length_append, List.length_replicate]; omega
  · intro c hc
    rw [List.mem_append] at hc
    rcases hc with hc | hc
    · exact isLowerHex_replicate_zero _ c hc
    · exact isLowerHex_toDigits x c hc
  · rw [hexValue_replicate_zero_append, hexValue_toDigits]

theorem encodeAddressForInstruction_eq (a : List Char) :
    encodeAddressForInstruction a =
      decimalToHex (jsLength a) 64 ++ (toStringHex (bufferFrom a) ++
        List.replicate (128 - 2 * (bufferFrom a).length) '0') := by
  simp only [encodeAddressForInstruction, padEnd, length_toStringHex]

theorem jsLength_le (s : List Char) : jsLength s ≤ 2 * s.length := by
  induction s with
  | nil => simp [jsLength]
  | cons c cs ih =>
    simp only [jsLength, utf16Size, List.length_cons]
    split <;> omega

/-- An address field within capacity: 192 lowercase hex digits. -/
theorem encodeAddressForInstruction_field (a : List Char) (hascii : isAscii a)
    (hlen : a.length ≤ 64) :
    (encodeAddressForInstruction a).length = 192 ∧
      ∀ c ∈ encodeAddressForInstruction a, isLowerHex c := by
  have hw := decimalToHex_word (jsLength a) (jsLength a)
    (numberOfNat_of_lt _ (by rw [jsLength_of_isAscii a hascii]; omega))
    (by rw [jsLength_of_isAscii a hascii]; omega)
  have hb := length_bufferFrom_of_isAscii a hascii
  rw [encodeAddressForInstruction_eq]
  refine ⟨?_, ?_⟩
  · simp only [List.length_append, List.length_replicate, length_toStringHex, hw.1, hb]; omega
  · intro c hc
    simp only [List.mem_append] at hc
    rcases hc with hc | hc | hc
    · exact hw.2.1 c hc
    · exact isLowerHex_toStringHex _ (bufferFrom_lt a) c hc
    · exact isLowerHex_replicate_zero _ c hc

/-! ## Lemmas on the digits of the bytes -/

theorem hexValue_pair (b : Nat) (hb : b < 256) :
    hexValue [Nat.digitChar (b / 16), Nat.digitChar (b % 16)] = b := by
  simp only [hexValue, List.foldl_cons, List.foldl_nil,
    hexDigitValue_digitChar (b / 16) (by omega),
    hexDigitValue_digitChar (b % 16) (Nat.mod_lt _ (by decide))]
  omega

theorem hexValue_toStringHex_at (bs : List Nat) (h : ∀ b ∈ bs, b < 256) (i b : Nat)
    (hi : bs[i]? = some b) : hexValue (((toStringHex bs).drop (2 * i)).take 2) = b := by
  induction bs generalizing i with
  | nil => simp at hi
  | cons b0 rest ih =>
    cases i with
    | zero =>
      simp only [List.getElem?_cons_zero, Option.some.injEq] at hi
      subst hi
      simp only [toStringHex, Nat.mul_zero, List.drop_zero, List.take_succ_cons, List.take_zero]
      exact hexValue_pair b0 (h b0 (List.mem_cons_self _ _))
    | succ i =>
      simp only [List.getElem?_cons_succ] at hi
      have h2 : 2 * (i + 1) = 2 * i + 1 + 1 := by omega
      rw [h2]
      simp only [toStringHex, List.drop_succ_cons]
      exact ih (fun d hd => h d (List.mem_cons_of_mem _ hd)) i hi

theorem length_encodeAddressForInstruction_ge (a : List Char) (hmax : jsLength a < 2 ^ 53) :
    64 ≤ (encodeAddressForInstruction a).length := by
  have hw := decimalToHex_word (jsLength a) (jsLength a) (numberOfNat_of_lt _ hmax) (by omega)
  rw [encodeAddressForInstruction_eq, List.length_append, hw.1]
  omega

/-- The length word of an address field, for an address of any byte length. -/
theorem encodeAddressForInstruction_length_word (a : List Char) (hmax : jsLength a < 2 ^ 53) :
    ((encodeAddressForInstruction a).take 64).length = 64 ∧
      (∀ c ∈ (encodeAddressForInstruction a).take 64, isLowerHex c) ∧
      hexValue ((encodeAddressForInstruction a).take 64) = jsLength a := by
  have hw := decimalToHex_word (jsLength a) (jsLength a) (numberOfNat_of_lt _ hmax) (by omega)
  rw [encodeAddressForInstruction_eq, List.take_left' hw.1]
  exact hw
/-! ## Layout of the instruction payload -/

set_option maxRecDepth 8000

theorem length_INSTRUCTION_PREFIX_CONST : INSTRUCTION_PREFIX_CONST.length = 896 := by decide

theorem length_INSTRUCTION_MIDDLE_CONST : INSTRUCTION_MIDDLE_CONST.length = 320 := by decide

theorem length_DENOMS_BLOCK_CONST : DENOMS_BLOCK_CONST.length = 384 := by decide

theorem isLowerHex_INSTRUCTION_PREFIX_CONST : ∀ c ∈ INSTRUCTION_PREFIX_CONST, isLowerHex c := by
  decide!

theorem isLowerHex_INSTRUCTION_MIDDLE_CONST : ∀ c ∈ INSTRUCTION_MIDDLE_CONST, isLowerHex c := by
  decide!

theorem isLowerHex_DENOMS_BLOCK_CONST : ∀ c ∈ DENOMS_BLOCK_CONST, isLowerHex c := by
  decide!

theorem constructDynamicInstruction_eq (n : Nat) (p s t : List Char) :
    constructDynamicInstruction n p s t =
      '0' :: 'x' :: (INSTRUCTION_PREFIX_CONST ++ (decimalToHex n 64 ++
        (INSTRUCTION_MIDDLE_CONST ++ (decimalToHex n 64 ++
          (encodeAddressForInstruction p ++ (encodeAddressForInstruction s ++
            (DENOMS_BLOCK_CONST ++ encodeAddressForInstruction t))))))) := by
  simp only [constructDynamicInstruction, List.append_assoc]
  rfl

theorem length_decimalToHex (d padding : Nat) :
    (decimalToHex d padding).length = max (toString16 (numberOfNat d)).length padding := by
  unfold decimalToHex; exact length_padLoop _ _

/-- Words 14 and 20 of the payload are both the amount word, whenever that word has
its nominal 64 digits. -/
theorem amount_words (n : Nat) (p s t : List Char) (h : (decimalToHex n 64).length = 64) :
    (((constructDynamicInstruction n p s t).drop 2).drop 896).take 64 = decimalToHex n 64 ∧
      (((constructDynamicInstruction n p s t).drop 2).drop 1280).take 64 =
        decimalToHex n 64 := by
  rw [constructDynamicInstruction_eq]
  simp only [List.drop_succ_cons, List.drop_zero]
  refine ⟨?_, ?_⟩
  · rw [List.drop_left' length_INSTRUCTION_PREFIX_CONST, List.take_left' h]
  · rw [← List.append_assoc, ← List.append_assoc, List.drop_left', List.take_left' h]
    simp only [List.length_append, length_INSTRUCTION_PREFIX_CONST,
      length_INSTRUCTION_MIDDLE_CONST, h]
/-! ## Claims on the instruction encoder -/

/-- C1 (amended): for every integer amount `n < 2^256 - 2^202` (the amounts whose nearest
binary64 value is below `2^256`) and every three ASCII addresses of at most 64 bytes,
`constructDynamicInstruction n p s t` is `"0x"` followed by exactly `2304 = 36 * 64`
lowercase hex digits, whatever the content and length of the addresses. -/
theorem constructDynamicInstruction_length_fixed (n : Nat) (p s t : List Char)
    (hn : n < 2 ^ 256 - 2 ^ 202)
    (hp : isAscii p ∧ p.length ≤ 64) (hs : isAscii s ∧ s.length ≤ 64)
    (ht : isAscii t ∧ t.length ≤ 64) :
    ∃ digits, constructDynamicInstruction n p s t = "0x".data ++ digits ∧
      digits.length = 36 * 64 ∧ ∀ c ∈ digits, isLowerHex c := by
  obtain ⟨x, hx, hxlt⟩ := numberOfNat_lt n hn
  have hw := decimalToHex_word n x hx hxlt
  have h1 := encodeAddressForInstruction_field p hp.1 hp.2
  have h2 := encodeAddressForInstruction_field s hs.1 hs.2
  have h3 := encodeAddressForInstruction_field t ht.1 ht.2
  rw [constructDynamicInstruction_eq]
  refine ⟨INSTRUCTION_PREFIX_CONST ++ (decimalToHex n 64 ++
    (INSTRUCTION_MIDDLE_CONST ++ (decimalToHex n 64 ++
      (encodeAddressForInstruction p ++ (encodeAddressForInstruction s ++
        (DENOMS_BLOCK_CONST ++ encodeAddressForInstruction t)))))), rfl, ?_, ?_⟩
  · simp only [List.length_append, length_INSTRUCTION_PREFIX_CONST,
      length_INSTRUCTION_MIDDLE_CONST, length_DENOMS_BLOCK_CONST, hw.1, h1.1, h2.1, h3.1]
  · intro c hc
    simp only [List.mem_append] at hc
    rcases hc with hc | hc | hc | hc | hc | hc | hc | hc
    · exact isLowerHex_INSTRUCTION_PREFIX_CONST c hc
    · exact hw.2.1 c hc
    · exact isLowerHex_INSTRUCTION_MIDDLE_CONST c hc
    · exact hw.2.1 c hc
    · exact h1.2 c hc
    · exact h2.2 c hc
    · exact isLowerHex_DENOMS_BLOCK_CONST c hc
    · exact h3.2 c hc

/-- Witness of C1 (amended) at amount 1000 and three short addresses. -/
theorem constructDynamicInstruction_length_fixed_witness :
    ∃ digits, constructDynamicInstruction 1000 "bbn1abc".data "xion1abc".data "xion1j0".data =
        "0x".data ++ digits ∧
      digits.length = 36 * 64 ∧ ∀ c ∈ digits, isLowerHex c :=
  constructDynamicInstruction_length_fixed 1000 "bbn1abc".data "xion1abc".data "xion1j0".data
    (by norm_num) (by decide) (by decide) (by decide)

/-- C1 (counterexample): the amount `2^256 - 1` is below `2^256`, yet `Number` rounds it
to `2^256`, whose hex expansion has 65 digits: the payload has 2306 hex digits after
`"0x"`, which is not a multiple of 64. -/
theorem constructDynamicInstruction_length_at_max :
    2 ^ 256 - 1 < 2 ^ 256 ∧
      ((constructDynamicInstruction (2 ^ 256 - 1) "a".data "b".data "c".data).drop 2).length
        = 2306 ∧ 2306 % 64 ≠ 0 := by
  have hN : numberOfNat (2 ^ 256 - 1) = some (2 ^ 256) := by decide
  have hd : (Nat.toDigits 16 (2 ^ 256)).length = 65 := by decide
  have h1 := (encodeAddressForInstruction_field "a".data (by decide) (by decide)).1
  have h2 := (encodeAddressForInstruction_field "b".data (by decide) (by decide)).1
  have h3 := (encodeAddressForInstruction_field "c".data (by decide) (by decide)).1
  refine ⟨by norm_num, ?_, by decide⟩
  rw [constructDynamicInstruction_eq]
  simp only [List.drop_succ_cons, List.drop_zero, List.length_append,
    length_INSTRUCTION_PREFIX_CONST, length_INSTRUCTION_MIDDLE_CONST,
    length_DENOMS_BLOCK_CONST, length_decimalToHex, hN, toString16, hd, h1, h2, h3]
  rfl

/-- C2 (amended): the encoder has no failure path and no address-too-long error.  For
every address string, whatever its raw byte length (beyond 64 included),
`encodeAddressForInstruction` returns a field that begins with the length word: 64
lowercase hex digits whose value is the length of the string.  And for every three
addresses, whatever their byte lengths, `constructDynamicInstruction` returns a payload:
`"0x"`, the constant header, and further on the length word of every address that no
over-long address precedes (word 21 for the primary, word 24 for the secondary, word 33
for the tertiary). -/
theorem encoder_never_rejects (n : Nat) (p s t : List Char) (hn : n < 2 ^ 256 - 2 ^ 202)
    (hmax : ∀ a, a ∈ [p, s, t] → jsLength a < 2 ^ 53) :
    (∀ a, a ∈ [p, s, t] →
      ((encodeAddressForInstruction a).take 64).length = 64 ∧
      (∀ c ∈ (encodeAddressForInstruction a).take 64, isLowerHex c) ∧
      hexValue ((encodeAddressForInstruction a).take 64) = jsLength a) ∧
    (∃ rest, constructDynamicInstruction n p s t =
      "0x".data ++ INSTRUCTION_PREFIX_CONST ++ rest) ∧
    (((constructDynamicInstruction n p s t).drop 2).drop 1344).take 64 =
      (encodeAddressForInstruction p).take 64 ∧
    (isAscii p ∧ p.length ≤ 64 →
      (((constructDynamicInstruction n p s t).drop 2).drop 1536).take 64 =
        (encodeAddressForInstruction s).take 64) ∧
    (isAscii p ∧ p.length ≤ 64 → isAscii s ∧ s.length ≤ 64 →
      (((constructDynamicInstruction n p s t).drop 2).drop 2112).take 64 =
        (encodeAddressForInstruction t).take 64) := by
  obtain ⟨x, hx, hxlt⟩ := numberOfNat_lt n hn
  have hw := (decimalToHex_word n x hx hxlt).1
  have gp := length_encodeAddressForInstruction_ge p (hmax p (by simp))
  have gs := length_encodeAddressForInstruction_ge s (hmax s (by simp))
  have gt := length_encodeAddressForInstruction_ge t (hmax t (by simp))
  refine ⟨fun a ha => encodeAddressForInstruction_length_word a (hmax a ha), ?_, ?_, ?_, ?_⟩
  · rw [constructDynamicInstruction_eq]
    exact ⟨_, rfl⟩
  · rw [constructDynamicInstruction_eq]
    simp only [List.drop_succ_cons, List.drop_zero]
    rw [← List.append_assoc, ← List.append_assoc, ← List.append_assoc, List.drop_left',
      List.take_append_of_le_length gp]
    simp only [List.length_append, length_INSTRUCTION_PREFIX_CONST,
      length_INSTRUCTION_MIDDLE_CONST, hw]
  · intro hp
    have f1 := (encodeAddressForInstruction_field p hp.1 hp.2).1
    rw [constructDynamicInstruction_eq]
    simp only [List.drop_succ_cons, List.drop_zero]
    rw [← List.append_assoc, ← List.append_assoc, ← List.append_assoc, ← List.append_assoc,
      List.drop_left', List.take_append_of_le_length gs]
    simp only [List.length_append, length_INSTRUCTION_PREFIX_CONST,
      length_INSTRUCTION_MIDDLE_CONST, hw, f1]
  · intro hp hs
    have f1 := (encodeAddressForInstruction_field p hp.1 hp.2).1
    have f2 := (encodeAddressForInstruction_field s hs.1 hs.2).1
    rw [constructDynamicInstruction_eq]
    simp only [List.drop_succ_cons, List.drop_zero]
    rw [← List.append_assoc, ← List.append_assoc, ← List.append_assoc, ← List.append_assoc,
      ← List.append_assoc, ← List.append_assoc, List.drop_left']
    simp only [List.length_append, length_INSTRUCTION_PREFIX_CONST,
      length_INSTRUCTION_MIDDLE_CONST, length_DENOMS_BLOCK_CONST, hw, f1, f2]

/-- Witness of C2 (amended) with a primary address of 65 bytes: its length word, at
word 21 of the payload, holds 65. -/
theorem encoder_never_rejects_witness :
    hexValue ((encodeAddressForInstruction (List.replicate 65 'b')).take 64) =
        jsLength (List.replicate 65 'b') ∧
      (((constructDynamicInstruction 1000 (List.replicate 65 'b') "xion1abc".data
        "xion1j0".data).drop 2).drop 1344).take 64 =
        (encodeAddressForInstruction (List.replicate 65 'b')).take 64 :=
  ⟨((encoder_never_rejects 1000 (List.replicate 65 'b') "xion1abc".data "xion1j0".data
      (by norm_num) (by decide)).1 (List.replicate 65 'b') (by simp)).2.2,
    (encoder_never_rejects 1000 (List.replicate 65 'b') "xion1abc".data "xion1j0".data
      (by norm_num) (by decide)).2.2.1⟩

/-- C2 (counterexample): an address of 65 raw bytes is not rejected; the encoder
returns a field of 194 hex digits, two more than the 192 of the fixed layout. -/
theorem encodeAddressForInstruction_no_rejection :
    (bufferFrom (List.replicate 65 'a')).length = 65 ∧
      (encodeAddressForInstruction (List.replicate 65 'a')).length = 194 := by
  have hw := decimalToHex_word 65 65 (numberOfNat_of_lt _ (by norm_num)) (by norm_num)
  have hj : jsLength (List.replicate 65 'a') = 65 := by decide
  have hb : (bufferFrom (List.replicate 65 'a')).length = 65 := by decide
  refine ⟨hb, ?_⟩
  rw [encodeAddressForInstruction_eq, hj]
  simp only [List.length_append, hw.1, length_toStringHex, hb, List.length_replicate]
/-- C3: for every ASCII address `a` of byte length `L ≤ 64`, `encodeAddressForInstruction a`
is exactly 192 lowercase hex digits: the first 64 digits hold `L` as a left-zero-padded
big-endian integer, the next `2 * L` digits are the hex of the bytes of `a` in order (the
two digits at `64 + 2 * i` have the code of the `i`-th character as their value), and
the remaining `128 - 2 * L` digits are all `'0'`. -/
theorem encodeAddressForInstruction_layout (a : List Char) (hascii : isAscii a)
    (hlen : a.length ≤ 64) :
    (encodeAddressForInstruction a).length = 192 ∧
      (∀ c ∈ encodeAddressForInstruction a, isLowerHex c) ∧
      (bufferFrom a).length = a.length ∧
      ((encodeAddressForInstruction a).take 64).length = 64 ∧
      hexValue ((encodeAddressForInstruction a).take 64) = a.length ∧
      (∀ i c, a[i]? = some c →
        hexValue (((encodeAddressForInstruction a).drop (64 + 2 * i)).take 2) =
          c.val.toNat) ∧
      (encodeAddressForInstruction a).drop (64 + 2 * a.length) =
        List.replicate (128 - 2 * a.length) '0' := by
  have hj := jsLength_of_isAscii a hascii
  have hb := length_bufferFrom_of_isAscii a hascii
  have hw := decimalToHex_word (jsLength a) (jsLength a)
    (numberOfNat_of_lt _ (by rw [hj]; omega)) (by rw [hj]; omega)
  have hf := encodeAddressForInstruction_field a hascii hlen
  have hh : (toStringHex (bufferFrom a)).length = 2 * a.length := by
    rw [length_toStringHex, hb]
  refine ⟨hf.1, hf.2, hb, ?_, ?_, ?_, ?_⟩
  · rw [List.length_take, hf.1]; rfl
  · rw [encodeAddressForInstruction_eq, List.take_left' hw.1, hw.2.2, hj]
  · intro i c hi
    have hil : i < a.length := (List.getElem?_eq_some.1 hi).1
    have hbi : (bufferFrom a)[i]? = some c.val.toNat := by
      rw [bufferFrom_of_isAscii a hascii, List.getElem?_map, hi]; rfl
    have hat := hexValue_toStringHex_at (bufferFrom a) (bufferFrom_lt a) i c.val.toNat hbi
    rw [encodeAddressForInstruction_eq, List.drop_append_eq_append_drop, hw.1]
    have h0 : List.drop (64 + 2 * i) (decimalToHex (jsLength a) 64) = [] :=
      List.drop_eq_nil_of_le (by rw [hw.1]; omega)
    have h1 : 64 + 2 * i - 64 = 2 * i := by omega
    rw [h0, h1, List.nil_append, List.drop_append_of_le_length (by rw [hh]; omega),
      List.take_append_of_le_length (by rw [List.length_drop, hh]; omega)]
    exact hat
  · rw [encodeAddressForInstruction_eq, ← List.append_assoc, List.drop_left', hb]
    rw [List.length_append, hw.1, hh]

/-- Witness of C3 at the 63-byte default tertiary address of `main`: 192 digits, the
two digits after the length word holding the code of its first character `x`. -/
theorem encodeAddressForInstruction_layout_witness :
    (encodeAddressForInstruction
      "xion1j0hp6qztgaza7t0y8dvc22eavvvqyds3kze58dlqkulys8r2kc8s9mp0sm".data).length = 192 ∧
    hexValue (((encodeAddressForInstruction
      "xion1j0hp6qztgaza7t0y8dvc22eavvvqyds3kze58dlqkulys8r2kc8s9mp0sm".data).drop
        (64 + 2 * 0)).take 2) = 'x'.val.toNat :=
  ⟨(encodeAddressForInstruction_layout
      "xion1j0hp6qztgaza7t0y8dvc22eavvvqyds3kze58dlqkulys8r2kc8s9mp0sm".data
      (by decide) (by decide)).1,
    (encodeAddressForInstruction_layout
      "xion1j0hp6qztgaza7t0y8dvc22eavvvqyds3kze58dlqkulys8r2kc8s9mp0sm".data
      (by decide) (by decide)).2.2.2.2.2.1 0 'x' (by rfl)⟩

/-- C4 (amended): for every integer amount `n ≤ 2^53` (the range on which `Number` is
exact) and any three addresses, the words at index 14 (hex digits 896..959 after `"0x"`)
and index 20 (hex digits 1280..1343) of the payload are the same 64 lowercase hex digits,
left-zero-padded, whose big-endian unsigned value is `n`. -/
theorem constructDynamicInstruction_amount_twice (n : Nat) (p s t : List Char)
    (hn : n ≤ 2 ^ 53) :
    ((((constructDynamicInstruction n p s t).drop 2).drop 896).take 64).length = 64 ∧
      (∀ c ∈ (((constructDynamicInstruction n p s t).drop 2).drop 896).take 64,
        isLowerHex c) ∧
      hexValue ((((constructDynamicInstruction n p s t).drop 2).drop 896).take 64) = n ∧
      (((constructDynamicInstruction n p s t).drop 2).drop 1280).take 64 =
        (((constructDynamicInstruction n p s t).drop 2).drop 896).take 64 := by
  have hw := decimalToHex_word n n (numberOfNat_of_le n hn)
    (by have : (2 : Nat) ^ 53 < 2 ^ 256 := by norm_num
        omega)
  have ha := amount_words n p s t hw.1
  rw [ha.1, ha.2]
  exact ⟨hw.1, hw.2.1, hw.2.2, rfl⟩

/-- Witness of C4 (amended) at the amount 1500000. -/
theorem constructDynamicInstruction_amount_twice_witness :
    hexValue ((((constructDynamicInstruction 1500000 "bbn1abc".data "xion1abc".data
      "xion1j0".data).drop 2).drop 896).take 64) = 1500000 :=
  (constructDynamicInstruction_amount_twice 1500000 "bbn1abc".data "xion1abc".data
    "xion1j0".data (by norm_num)).2.2.1

/-- C4 (counterexample): for the amount `2^53 + 1`, below `2^256`, word 14 of the
payload holds `2^53`, not the amount: `Number` rounds it to the nearest binary64. -/
theorem constructDynamicInstruction_amount_rounded :
    2 ^ 53 + 1 < 2 ^ 256 ∧
      hexValue ((((constructDynamicInstruction (2 ^ 53 + 1) "a".data "b".data
        "c".data).drop 2).drop 896).take 64) = 2 ^ 53 ∧
      2 ^ 53 ≠ 2 ^ 53 + 1 := by
  have hN : numberOfNat (2 ^ 53 + 1) = some (2 ^ 53) := by decide
  have hw := decimalToHex_word (2 ^ 53 + 1) (2 ^ 53) hN (by norm_num)
  have ha := amount_words (2 ^ 53 + 1) "a".data "b".data "c".data hw.1
  refine ⟨by norm_num, ?_, by norm_num⟩
  rw [ha.1, hw.2.2]

/-- C5 (amended): the denom block is exactly three repetitions of one descriptor of 128
hex digits: a 32-byte length word holding 4 followed by the bytes of `"ubbn"` (the hex
digits `7562626e`, of values 117, 98, 98, 110, the codes of `u`, `b`, `b`, `n`)
right-padded with zero bytes to 32 bytes (not 64).  The descriptor is the first 128
digits of `encodeAddressForInstruction("ubbn")`, which goes on with 64 more zeros. -/
theorem DENOMS_BLOCK_CONST_layout :
    DENOMS_BLOCK_CONST = DENOM_UBBN_ENCODED ++ DENOM_UBBN_ENCODED ++ DENOM_UBBN_ENCODED ∧
      DENOM_UBBN_ENCODED =
        "0000000000000000000000000000000000000000000000000000000000000004".data ++
          "7562626e".data ++ List.replicate 56 '0' ∧
      DENOM_UBBN_ENCODED.length = 128 ∧
      hexValue (DENOM_UBBN_ENCODED.take 64) = 4 ∧
      [hexValue ((DENOM_UBBN_ENCODED.drop 64).take 2),
        hexValue ((DENOM_UBBN_ENCODED.drop 66).take 2),
        hexValue ((DENOM_UBBN_ENCODED.drop 68).take 2),
        hexValue ((DENOM_UBBN_ENCODED.drop 70).take 2)] =
          "ubbn".data.map (fun c => c.val.toNat) ∧
      DENOM_UBBN_ENCODED.drop 72 = List.replicate 56 '0' ∧
      encodeAddressForInstruction "ubbn".data =
        DENOM_UBBN_ENCODED ++ List.replicate 64 '0' := by
  refine ⟨by decide, by decide, by decide, by decide, by decide, by decide, ?_⟩
  rw [encodeAddressForInstruction_eq]
  have hj : decimalToHex (jsLength "ubbn".data) 64 =
      "0000000000000000000000000000000000000000000000000000000000000004".data := by
    unfold decimalToHex; rw [padLoop_eq]; decide
  rw [hj]; decide

/-- C5 (counterexample): the descriptor is not `encodeAddressForInstruction("ubbn")`:
it has 128 hex digits where the address field has 192. -/
theorem DENOM_UBBN_ENCODED_ne_address_field :
    DENOM_UBBN_ENCODED ≠ encodeAddressForInstruction "ubbn".data ∧
      DENOM_UBBN_ENCODED.length = 128 ∧
      (encodeAddressForInstruction "ubbn".data).length = 192 := by
  have h192 := (encodeAddressForInstruction_field "ubbn".data (by decide) (by decide)).1
  have h128 : DENOM_UBBN_ENCODED.length = 128 := by decide
  refine ⟨?_, h128, h192⟩
  intro h
  rw [h, h192] at h128
  exact absurd h128 (by decide)
/-! ## Claims on the amount converter -/

/-- C6 (code at the failing input): `convertToMicroBBN("2.01")` returns `"2009999"`, one
less than `⌊2.01 * 1000000⌋ = 2010000`: the binary64 nearest to 2.01 lies below 2.01 and
the rounded product stays below 2010000.  The two instances named by the claim hold:
`"1.5"` gives `"1500000"` and `"0.0000001"` gives `"0"`. -/
theorem convertToMicroBBN_loses_a_unit :
    convertToMicroBBN "2.01".data = Except.ok "2009999".data ∧
      (201 * 1000000 / 100 : Nat) = 2010000 ∧
      convertToMicroBBN "1.5".data = Except.ok "1500000".data ∧
      convertToMicroBBN "0.0000001".data = Except.ok "0".data := by
  refine ⟨by rfl, by rfl, by rfl, by rfl⟩

/-- C7 (code at the failing input): `convertToMicroBBN("Infinity")` does not fail, it
returns `"Infinity"`: the guard tests `isNaN` and `<= 0` only.  Zero, negative and
non-numeric inputs do fail. -/
theorem convertToMicroBBN_accepts_Infinity :
    convertToMicroBBN "Infinity".data = Except.ok "Infinity".data ∧
      convertToMicroBBN "0".data = Except.error "Invalid amount: 0".data ∧
      convertToMicroBBN "-1".data = Except.error "Invalid amount: -1".data ∧
      convertToMicroBBN "abc".data = Except.error "Invalid amount: abc".data := by
  refine ⟨by rfl, by rfl, by rfl, by rfl⟩
/-! ## Lemmas on the planner -/

theorem setupLoop_eq (derive : List Char → List Char × List Char) (ms : List (List Char))
    (i : Nat) (acc : List Wallet) :
    setupLoop derive ms i acc = acc ++ setupBlock derive ms i := by
  induction ms generalizing i acc with
  | nil => simp [setupLoop, setupBlock]
  | cons m ms ih => simp [setupLoop, setupBlock, ih]

theorem length_setupBlock (derive : List Char → List Char × List Char)
    (ms : List (List Char)) (i : Nat) : (setupBlock derive ms i).length = ms.length := by
  induction ms generalizing i with
  | nil => rfl
  | cons m ms ih => simp [setupBlock, ih]

theorem getElem?_setupBlock (derive : List Char → List Char × List Char)
    (ms : List (List Char)) (i w : Nat) (hw : w < ms.length) :
    ∃ selectedWallet, (setupBlock derive ms i)[w]? = some selectedWallet ∧
      selectedWallet.index = i + w + 1 := by
  induction ms generalizing i w with
  | nil => simp at hw
  | cons m ms ih =>
    cases w with
    | zero =>
      exact ⟨Wallet.mk m (derive m).fst (derive m).snd (i + 1), by simp [setupBlock], rfl⟩
    | succ w =>
      obtain ⟨sw, h1, h2⟩ := ih (i + 1) w (by simpa using hw)
      refine ⟨sw, by simpa [setupBlock] using h1, by omega⟩

theorem length_setupWallets (derive : List Char → List Char × List Char)
    (ms : List (List Char)) : (setupWallets derive ms).length = ms.length := by
  simp [setupWallets, setupLoop_eq, length_setupBlock]

theorem getElem?_setupWallets (derive : List Char → List Char × List Char)
    (ms : List (List Char)) (w : Nat) (hw : w < ms.length) :
    ∃ selectedWallet, (setupWallets derive ms)[w]? = some selectedWallet ∧
      selectedWallet.index = w + 1 := by
  obtain ⟨sw, h1, h2⟩ := getElem?_setupBlock derive ms 0 w hw
  exact ⟨sw, by simpa [setupWallets, setupLoop_eq] using h1, by omega⟩

theorem walletLoop_eq (round : Nat) (amt human : List Char) (ws : List Wallet)
    (acc : List TxParams) :
    walletLoop round amt human ws acc =
      acc ++ ws.map (fun w => multiSpec w round amt human) := by
  induction ws generalizing acc with
  | nil => simp [walletLoop]
  | cons w ws ih => simp [walletLoop, ih]

theorem roundLoop_eq (ws : List Wallet) (amt human : List Char) (k round : Nat)
    (acc : List TxParams) :
    roundLoop ws amt human k round acc = acc ++ roundBlock ws amt human k round := by
  induction k generalizing round acc with
  | zero => simp [roundLoop, roundBlock]
  | succ k ih => simp [roundLoop, roundBlock, ih, walletLoop_eq]

theorem length_roundBlock (ws : List Wallet) (amt human : List Char) (k round : Nat) :
    (roundBlock ws amt human k round).length = k * ws.length := by
  induction k generalizing round with
  | zero => simp [roundBlock]
  | succ k ih => simp [roundBlock, ih, Nat.succ_mul]; omega

theorem getElem?_roundBlock (ws : List Wallet) (amt human : List Char) (k round r w : Nat)
    (hr : r < k) (hw : w < ws.length) :
    (roundBlock ws amt human k round)[r * ws.length + w]? =
      (ws[w]?).map (fun sw => multiSpec sw (round + r) amt human) := by
  induction k generalizing round r with
  | zero => omega
  | succ k ih =>
    cases r with
    | zero =>
      simp only [roundBlock, Nat.zero_mul, Nat.zero_add, Nat.add_zero]
      rw [List.getElem?_append_left (by simpa using hw), List.getElem?_map]
    | succ r =>
      simp only [roundBlock]
      rw [List.getElem?_append_right (by simp [Nat.succ_mul]; omega)]
      have : (r + 1) * ws.length + w - (List.map (fun w => multiSpec w round amt human) ws).length
          = r * ws.length + w := by
        simp [Nat.succ_mul]; omega
      rw [this, ih (round + 1) r (by omega)]
      have : round + 1 + r = round + (r + 1) := by omega
      rw [this]

theorem convertToMicroBBN_nil : ∃ e, convertToMicroBBN [] = Except.error e :=
  ⟨_, rfl⟩

theorem orDefault_of_ok (answer v : List Char) (h : convertToMicroBBN answer = Except.ok v) :
    orDefault answer = answer := by
  unfold orDefault
  split
  · rename_i h0
    subst h0
    obtain ⟨e, he⟩ := convertToMicroBBN_nil
    rw [he] at h; cases h
  · rfl

theorem orDefault_of_ne (answer : List Char) (h : answer ≠ []) : orDefault answer = answer := by
  unfold orDefault; rw [if_neg h]

theorem singleWalletLoop_ok (sw : Wallet) (answers : Nat → List Char) (remaining i : Nat)
    (acc : List TxParams)
    (h : ∀ j, i ≤ j → j < i + remaining → ∃ v, convertToMicroBBN (answers j) = Except.ok v) :
    ∃ block, singleWalletLoop sw answers remaining i acc = some (acc ++ block) ∧
      block.length = remaining ∧
      ∀ k, k < remaining → ∃ spec, block[k]? = some spec ∧ spec.wallet = sw ∧
        convertToMicroBBN (answers (i + k)) = Except.ok spec.amount := by
  induction remaining generalizing i acc with
  | zero => exact ⟨[], by simp [singleWalletLoop], rfl, fun k hk => absurd hk (by omega)⟩
  | succ n ih =>
    obtain ⟨v, hv⟩ := h i (Nat.le_refl i) (by omega)
    obtain ⟨block, hb, hlen, hspec⟩ := ih (i + 1)
      (acc ++ [singleSpec sw v (answers i)]) (fun j h1 h2 => h j (by omega) (by omega))
    refine ⟨singleSpec sw v (answers i) :: block, ?_, by simp [hlen], ?_⟩
    · simp only [singleWalletLoop, orDefault_of_ok _ v hv, hv, hb]
      simp
    · intro k hk
      cases k with
      | zero => exact ⟨singleSpec sw v (answers i), by simp, rfl, hv⟩
      | succ k =>
        obtain ⟨spec, h1, h2, h3⟩ := hspec k (by omega)
        refine ⟨spec, by simpa using h1, h2, ?_⟩
        have : i + (k + 1) = i + 1 + k := by omega
        rw [this]; exact h3

theorem singleWalletLoop_error (sw : Wallet) (answers : Nat → List Char) (remaining i : Nat)
    (acc : List TxParams)
    (h : ∃ j, i ≤ j ∧ j < i + remaining ∧
      ∃ e, convertToMicroBBN (orDefault (answers j)) = Except.error e) :
    singleWalletLoop sw answers remaining i acc = none := by
  induction remaining generalizing i acc with
  | zero => obtain ⟨j, h1, h2, _⟩ := h; omega
  | succ n ih =>
    obtain ⟨j, h1, h2, e, he⟩ := h
    simp only [singleWalletLoop]
    split
    · rfl
    · rename_i v hv
      apply ih
      refine ⟨j, ?_, by omega, e, he⟩
      rcases Nat.eq_or_lt_of_le h1 with h3 | h3
      · subst h3; rw [he] at hv; cases hv
      · omega
/-! ## Claims on the batch planner -/

/-- C8: in multi-wallet mode, for every round count `R ≥ 1` and wallet count `W ≥ 2`
(with a shared amount that converts), the planner produces exactly `R * W` specs in
round-major order: the spec at position `r * W + w` uses wallet `w + 1`, has
`roundNumber = r + 1`, `walletNumber = w + 1` and memo `Round <r+1> - Wallet <w+1>`, and
every spec carries the same converted amount. -/
theorem plan_multi_wallet_round_major (derive : List Char → List Char × List Char)
    (mnemonics : List (List Char)) (R : Nat) (answers : Nat → List Char) (amt : List Char)
    (hR : 1 ≤ R) (hW : 2 ≤ mnemonics.length)
    (hamt : convertToMicroBBN (orDefault (answers 0)) = Except.ok amt) :
    ∃ txGenericParams,
      plan (setupWallets derive mnemonics) (some (R : Int)) answers = some txGenericParams ∧
      txGenericParams.length = R * mnemonics.length ∧
      ∀ r w, r < R → w < mnemonics.length →
        ∃ spec selectedWallet,
          txGenericParams[r * mnemonics.length + w]? = some spec ∧
          (setupWallets derive mnemonics)[w]? = some selectedWallet ∧
          selectedWallet.index = w + 1 ∧ spec.wallet = selectedWallet ∧
          spec.roundNumber = some (r + 1) ∧ spec.walletNumber = some (w + 1) ∧
          spec.memo = "Round ".data ++ Nat.toDigits 10 (r + 1) ++ " - Wallet ".data ++
            Nat.toDigits 10 (w + 1) ∧
          spec.amount = amt := by
  have hlen := length_setupWallets derive mnemonics
  have hmode : ¬ (setupWallets derive mnemonics).length = 1 := by omega
  have hpos : ¬ ((R : Int) ≤ 0) := by omega
  refine ⟨roundBlock (setupWallets derive mnemonics) amt (orDefault (answers 0)) R 0, ?_, ?_, ?_⟩
  · simp only [plan, if_neg hmode, planMultiWallet, if_neg hpos, hamt, roundLoop_eq,
      Int.toNat_ofNat, List.nil_append]
  · rw [length_roundBlock, hlen]
  · intro r w hr hw
    obtain ⟨sw, hsw, hidx⟩ := getElem?_setupWallets derive mnemonics w hw
    have hget := getElem?_roundBlock (setupWallets derive mnemonics) amt
      (orDefault (answers 0)) R 0 r w hr (by omega)
    rw [hlen, hsw] at hget
    refine ⟨multiSpec sw (0 + r) amt (orDefault (answers 0)), sw, hget, hsw, hidx, rfl, ?_, ?_,
      ?_, rfl⟩
    · simp [multiSpec]
    · simp [multiSpec, hidx]
    · simp [multiSpec, roundMemo, hidx]

/-- Witness of C8 at two rounds over three wallets with the amount `"1.5"`. -/
theorem plan_multi_wallet_round_major_witness :
    ∃ txGenericParams,
      plan (setupWallets (fun m => (m, m)) ["a".data, "b".data, "c".data]) (some ((2 : Nat) : Int))
        (fun _ => "1.5".data) = some txGenericParams ∧
      txGenericParams.length = 2 * 3 :=
  (plan_multi_wallet_round_major (fun m => (m, m)) ["a".data, "b".data, "c".data] 2
    (fun _ => "1.5".data) "1500000".data (by decide) (by decide) (by rfl)).imp
    (fun _ h => ⟨h.1, h.2.1⟩)

/-- C9: in single-wallet mode, for every transaction count `N ≥ 1`: when the `N`
supplied amounts are valid, the planner produces exactly `N` specs, every one of them
using wallet 1, the `i`-th carrying `convertToMicroBBN` of the `i`-th supplied amount;
and when a supplied (non-empty) amount is invalid, planning stops and the run executes
no transaction at all.  An empty answer supplies nothing: the default amount is used. -/
theorem plan_single_wallet_in_order (derive : List Char → List Char × List Char)
    (mnemonic : List Char) (N : Nat) (answers : Nat → List Char) (hN : 1 ≤ N) :
    ((∀ i, i < N → ∃ v, convertToMicroBBN (answers i) = Except.ok v) →
      ∃ txGenericParams,
        plan (setupWallets derive [mnemonic]) (some (N : Int)) answers = some txGenericParams ∧
        txGenericParams.length = N ∧
        ∀ i, i < N → ∃ spec, txGenericParams[i]? = some spec ∧
          (setupWallets derive [mnemonic])[0]? = some spec.wallet ∧ spec.wallet.index = 1 ∧
          convertToMicroBBN (answers i) = Except.ok spec.amount) ∧
    ((∃ i, i < N ∧ answers i ≠ [] ∧ ∃ e, convertToMicroBBN (answers i) = Except.error e) →
      plan (setupWallets derive [mnemonic]) (some (N : Int)) answers = none ∧
      ∀ connectFails succeeds,
        run (setupWallets derive [mnemonic]) (some (N : Int)) answers connectFails succeeds
          = []) := by
  have hpos : ¬ ((N : Int) ≤ 0) := by omega
  have hws : setupWallets derive [mnemonic] =
      [Wallet.mk mnemonic (derive mnemonic).fst (derive mnemonic).snd 1] := rfl
  have hplan : plan (setupWallets derive [mnemonic]) (some (N : Int)) answers =
      singleWalletLoop (Wallet.mk mnemonic (derive mnemonic).fst (derive mnemonic).snd 1)
        answers N 0 [] := by
    rw [hws]
    simp only [plan, List.length_singleton, if_true, planSingleWallet, if_neg hpos,
      Int.toNat_ofNat]
  refine ⟨?_, ?_⟩
  · intro hvalid
    obtain ⟨block, hb, hlen, hspec⟩ := singleWalletLoop_ok
      (Wallet.mk mnemonic (derive mnemonic).fst (derive mnemonic).snd 1) answers N 0 []
      (fun j _ h2 => hvalid j (by omega))
    refine ⟨block, by rw [hplan, hb, List.nil_append], hlen, ?_⟩
    intro i hi
    obtain ⟨spec, h1, h2, h3⟩ := hspec i hi
    refine ⟨spec, h1, ?_, ?_, ?_⟩
    · rw [hws, h2]; rfl
    · rw [h2]
    · rw [Nat.zero_add] at h3; exact h3
  · rintro ⟨i, hi, hne, e, he⟩
    have hnone : plan (setupWallets derive [mnemonic]) (some (N : Int)) answers = none := by
      rw [hplan]
      exact singleWalletLoop_error _ answers N 0 []
        ⟨i, Nat.zero_le i, by omega, e, by rw [orDefault_of_ne _ hne]; exact he⟩
    refine ⟨hnone, ?_⟩
    intro connectFails succeeds
    simp only [run, hnone]

/-- Witness of C9 at three transactions: with three valid amounts the plan has three
specs, and with an invalid second amount nothing is executed. -/
theorem plan_single_wallet_in_order_witness :
    (∃ txGenericParams,
      plan (setupWallets (fun m => (m, m)) ["a".data]) (some ((3 : Nat) : Int))
        (fun _ => "1.5".data) = some txGenericParams ∧ txGenericParams.length = 3) ∧
    run (setupWallets (fun m => (m, m)) ["a".data]) (some ((3 : Nat) : Int))
      (fun i => if i = 1 then "abc".data else "1.5".data) (fun _ => false) (fun _ => true) = [] :=
  ⟨((plan_single_wallet_in_order (fun m => (m, m)) "a".data 3 (fun _ => "1.5".data)
      (by decide)).1 (fun _ _ => ⟨"1500000".data, by rfl⟩)).imp (fun _ h => ⟨h.1, h.2.1⟩),
    ((plan_single_wallet_in_order (fun m => (m, m)) "a".data 3
      (fun i => if i = 1 then "abc".data else "1.5".data) (by decide)).2
      ⟨1, by decide, by decide, "Invalid amount: abc".data, by rfl⟩).2 _ _⟩
/-! ## Claims on the execution loop -/

theorem attempts_executionLoop (total : Nat) (connectFails succeeds : Nat → Bool)
    (txs : List TxParams) (i : Nat)
    (h : ∀ j, i ≤ j → j < i + txs.length → connectFails j = false) :
    attempts (executionLoop total connectFails succeeds txs i) =
      (txs.enumFrom i).map (fun ip => (ip.2, succeeds ip.1)) := by
  induction txs generalizing i with
  | nil => rfl
  | cons params rest ih =>
    have hc : connectFails i = false := h i (Nat.le_refl i) (by simp)
    have hrest := ih (i + 1) (fun j h1 h2 => h j (by omega) (by simp at h2 ⊢; omega))
    simp only [executionLoop, hc, List.enumFrom_cons, List.map_cons]
    cases hs : succeeds i
    · simp [attempts, hrest]
    · by_cases hlast : i < total - 1
      · simp [hlast, attempts, hrest]
      · simp [hlast, attempts, hrest]

theorem length_filter_result (l : List (TxParams × Bool)) :
    (l.filter (fun a => a.2 == true)).length + (l.filter (fun a => a.2 == false)).length =
      l.length := by
  induction l with
  | nil => rfl
  | cons a l ih =>
    cases h : a.2 <;> simp [List.filter_cons, h] at ih ⊢ <;> omega

/-- C10 (amended): for every plan and every assignment of success or failure to the
broadcasts, provided the client rebinding that precedes each spec does not throw, the
execution loop attempts every spec exactly once, in plan order, whatever the result of
the specs before it: the list of attempts is the plan itself, each spec with its own
result, and the successes plus the failures make the plan length. -/
theorem executionLoop_attempts_every_spec (txGenericParams : List TxParams)
    (connectFails succeeds : Nat → Bool)
    (hconn : ∀ i, i < txGenericParams.length → connectFails i = false) :
    attempts (executionLoop txGenericParams.length connectFails succeeds txGenericParams 0) =
        (txGenericParams.enum).map (fun ip => (ip.2, succeeds ip.1)) ∧
      (attempts (executionLoop txGenericParams.length connectFails succeeds
        txGenericParams 0)).map Prod.fst = txGenericParams ∧
      countResult true (executionLoop txGenericParams.length connectFails succeeds
          txGenericParams 0) +
        countResult false (executionLoop txGenericParams.length connectFails succeeds
          txGenericParams 0) = txGenericParams.length := by
  have ha := attempts_executionLoop txGenericParams.length connectFails succeeds
    txGenericParams 0 (fun j _ h2 => hconn j (by omega))
  refine ⟨ha, ?_, ?_⟩
  · rw [ha, List.map_map]
    have : (Prod.fst ∘ fun (ip : Nat × TxParams) => (ip.2, succeeds ip.1)) = Prod.snd := rfl
    rw [this]
    exact List.enumFrom_map_snd 0 txGenericParams
  · unfold countResult
    rw [length_filter_result, ha, List.length_map, List.enumFrom_length]

/-- Witness of C10 on a plan of three specs whose second broadcast fails: the third
is attempted, with 2 successes and 1 failure. -/
theorem executionLoop_attempts_every_spec_witness :
    (attempts (executionLoop 3 (fun _ => false) (fun i => i != 1)
        (roundBlock (setupWallets (fun m => (m, m)) ["a".data, "b".data, "c".data])
          "1000".data "0.001".data 1 0) 0)).map Prod.fst =
      roundBlock (setupWallets (fun m => (m, m)) ["a".data, "b".data, "c".data])
        "1000".data "0.001".data 1 0 ∧
    countResult true (executionLoop 3 (fun _ => false) (fun i => i != 1)
      (roundBlock (setupWallets (fun m => (m, m)) ["a".data, "b".data, "c".data])
        "1000".data "0.001".data 1 0) 0) = 2 ∧
    countResult false (executionLoop 3 (fun _ => false) (fun i => i != 1)
      (roundBlock (setupWallets (fun m => (m, m)) ["a".data, "b".data, "c".data])
        "1000".data "0.001".data 1 0) 0) = 1 :=
  ⟨(executionLoop_attempts_every_spec
      (roundBlock (setupWallets (fun m => (m, m)) ["a".data, "b".data, "c".data])
        "1000".data "0.001".data 1 0) (fun _ => false) (fun i => i != 1)
      (fun _ _ => rfl)).2.1, by decide, by decide⟩

/-- C10 (counterexample): on a plan of three specs whose broadcasts all succeed, a
throw of the client rebinding before the second spec ends the batch: the rebinding is
outside the per-spec `try`, so one spec of three is attempted, with 1 success and 0
failures. -/
theorem executionLoop_stops_on_rebinding_failure :
    (roundBlock (setupWallets (fun m => (m, m)) ["a".data, "b".data, "c".data])
        "1000".data "0.001".data 1 0).length = 3 ∧
    (attempts (executionLoop 3 (fun i => i == 1) (fun _ => true)
      (roundBlock (setupWallets (fun m => (m, m)) ["a".data, "b".data, "c".data])
        "1000".data "0.001".data 1 0) 0)).length = 1 ∧
    countResult true (executionLoop 3 (fun i => i == 1) (fun _ => true)
      (roundBlock (setupWallets (fun m => (m, m)) ["a".data, "b".data, "c".data])
        "1000".data "0.001".data 1 0) 0) +
      countResult false (executionLoop 3 (fun i => i == 1) (fun _ => true)
        (roundBlock (setupWallets (fun m => (m, m)) ["a".data, "b".data, "c".data])
          "1000".data "0.001".data 1 0) 0) = 1 := by
  refine ⟨by decide, by decide, by decide⟩

/-- C11 (code at the failing input): on a plan of two specs whose first broadcast fails,
the loop goes from the failed attempt 0 straight to attempt 1, with no cooldown in
between: the cooldown sits inside the `try`, after the awaited transaction, and a
throw skips it.  When the first broadcast succeeds the cooldown is there, and none
follows the last transaction. -/
theorem executionLoop_no_cooldown_after_failure :
    executionLoop 2 (fun _ => false) (fun i => i != 0)
        [singleSpec (Wallet.mk "m".data "bbn1a".data "xion1a".data 1) "1000".data "0.001".data,
          singleSpec (Wallet.mk "m".data "bbn1a".data "xion1a".data 1) "2000".data "0.002".data]
        0 =
      [Event.attempt 0
          (singleSpec (Wallet.mk "m".data "bbn1a".data "xion1a".data 1) "1000".data
            "0.001".data) false,
        Event.attempt 1
          (singleSpec (Wallet.mk "m".data "bbn1a".data "xion1a".data 1) "2000".data
            "0.002".data) true] ∧
    executionLoop 2 (fun _ => false) (fun _ => true)
        [singleSpec (Wallet.mk "m".data "bbn1a".data "xion1a".data 1) "1000".data "0.001".data,
          singleSpec (Wallet.mk "m".data "bbn1a".data "xion1a".data 1) "2000".data "0.002".data]
        0 =
      [Event.attempt 0
          (singleSpec (Wallet.mk "m".data "bbn1a".data "xion1a".data 1) "1000".data
            "0.001".data) true,
        Event.cooldown 0,
        Event.attempt 1
          (singleSpec (Wallet.mk "m".data "bbn1a".data "xion1a".data 1) "2000".data
            "0.002".data) true] := by
  refine ⟨by rfl, by rfl⟩

/-! ## Injectivity of the encoder -/

theorem toStringHex_injective (bs bs' : List Nat) (h : ∀ b ∈ bs, b < 256)
    (h' : ∀ b ∈ bs', b < 256) (heq : toStringHex bs = toStringHex bs') : bs = bs' := by
  induction bs generalizing bs' with
  | nil =>
    cases bs' with
    | nil => rfl
    | cons b' bs' => simp [toStringHex] at heq
  | cons b bs ih =>
    cases bs' with
    | nil => simp [toStringHex] at heq
    | cons b' bs' =>
      have hb : b < 256 := h b (List.mem_cons_self _ _)
      have hb' : b' < 256 := h' b' (List.mem_cons_self _ _)
      simp only [toStringHex, List.cons.injEq] at heq
      obtain ⟨h1, h2, h3⟩ := heq
      have e1 := congrArg hexDigitValue h1
      have e2 := congrArg hexDigitValue h2
      rw [hexDigitValue_digitChar _ (by omega), hexDigitValue_digitChar _ (by omega)] at e1
      rw [hexDigitValue_digitChar _ (Nat.mod_lt _ (by decide)),
        hexDigitValue_digitChar _ (Nat.mod_lt _ (by decide))] at e2
      have hbb : b = b' := by omega
      rw [hbb, ih bs' (fun d hd => h d (List.mem_cons_of_mem _ hd))
        (fun d hd => h' d (List.mem_cons_of_mem _ hd)) h3]

theorem charCodes_injective (p p' : List Char)
    (h : p.map (fun c => c.val.toNat) = p'.map (fun c => c.val.toNat)) : p = p' := by
  have h2 := congrArg (List.map Char.ofNat) h
  simp only [List.map_map] at h2
  have hid : (Char.ofNat ∘ fun (c : Char) => c.val.toNat) = id := by
    funext c
    exact Char.ofNat_toNat c
  rw [hid, List.map_id, List.map_id] at h2
  exact h2

theorem encodeAddressForInstruction_injective (p p' : List Char)
    (hp : isAscii p ∧ p.length ≤ 64) (hp' : isAscii p' ∧ p'.length ≤ 64)
    (h : encodeAddressForInstruction p = encodeAddressForInstruction p') : p = p' := by
  have hj := jsLength_of_isAscii p hp.1
  have hj' := jsLength_of_isAscii p' hp'.1
  have hw := decimalToHex_word (jsLength p) (jsLength p)
    (numberOfNat_of_lt _ (by rw [hj]; omega)) (by rw [hj]; omega)
  have hw' := decimalToHex_word (jsLength p') (jsLength p')
    (numberOfNat_of_lt _ (by rw [hj']; omega)) (by rw [hj']; omega)
  rw [encodeAddressForInstruction_eq, encodeAddressForInstruction_eq] at h
  obtain ⟨h1, h2⟩ := List.append_inj h (by rw [hw.1, hw'.1])
  have hlen : p.length = p'.length := by
    have := congrArg hexValue h1
    rw [hw.2.2, hw'.2.2, hj, hj'] at this
    exact this
  have hb := length_bufferFrom_of_isAscii p hp.1
  have hb' := length_bufferFrom_of_isAscii p' hp'.1
  obtain ⟨h3, _⟩ := List.append_inj h2
    (by rw [length_toStringHex, length_toStringHex, hb, hb', hlen])
  have h4 := toStringHex_injective _ _ (bufferFrom_lt p) (bufferFrom_lt p') h3
  rw [bufferFrom_of_isAscii p hp.1, bufferFrom_of_isAscii p' hp'.1] at h4
  exact charCodes_injective p p' h4

/-- C13 (amended): `constructDynamicInstruction` is injective on integer amounts up to
`2^53` (the range on which `Number` is exact) and ASCII addresses of at most 64 bytes:
equal payloads come from equal amounts and equal addresses. -/
theorem constructDynamicInstruction_injective (n n' : Nat) (p s t p' s' t' : List Char)
    (hn : n ≤ 2 ^ 53) (hn' : n' ≤ 2 ^ 53)
    (hp : isAscii p ∧ p.length ≤ 64) (hs : isAscii s ∧ s.length ≤ 64)
    (ht : isAscii t ∧ t.length ≤ 64)
    (hp' : isAscii p' ∧ p'.length ≤ 64) (hs' : isAscii s' ∧ s'.length ≤ 64)
    (ht' : isAscii t' ∧ t'.length ≤ 64)
    (h : constructDynamicInstruction n p s t = constructDynamicInstruction n' p' s' t') :
    n = n' ∧ p = p' ∧ s = s' ∧ t = t' := by
  have h53 : (2 : Nat) ^ 53 < 2 ^ 256 := by norm_num
  have hw := decimalToHex_word n n (numberOfNat_of_le n hn) (by omega)
  have hw' := decimalToHex_word n' n' (numberOfNat_of_le n' hn') (by omega)
  have f1 := (encodeAddressForInstruction_field p hp.1 hp.2).1
  have f1' := (encodeAddressForInstruction_field p' hp'.1 hp'.2).1
  have f2 := (encodeAddressForInstruction_field s hs.1 hs.2).1
  have f2' := (encodeAddressForInstruction_field s' hs'.1 hs'.2).1
  rw [constructDynamicInstruction_eq, constructDynamicInstruction_eq] at h
  simp only [List.cons.injEq, true_and] at h
  have h1 := List.append_cancel_left h
  obtain ⟨e1, h2⟩ := List.append_inj h1 (by rw [hw.1, hw'.1])
  have h3 := List.append_cancel_left h2
  obtain ⟨_, h4⟩ := List.append_inj h3 (by rw [hw.1, hw'.1])
  obtain ⟨e2, h5⟩ := List.append_inj h4 (by rw [f1, f1'])
  obtain ⟨e3, h6⟩ := List.append_inj h5 (by rw [f2, f2'])
  have e4 := List.append_cancel_left h6
  refine ⟨?_, encodeAddressForInstruction_injective p p' hp hp' e2,
    encodeAddressForInstruction_injective s s' hs hs' e3,
    encodeAddressForInstruction_injective t t' ht ht' e4⟩
  have := congrArg hexValue e1
  rw [hw.2.2, hw'.2.2] at this
  exact this

/-- Witness of C13 (amended) at the amount 1000 and three short addresses. -/
theorem constructDynamicInstruction_injective_witness :
    (1000 : Nat) = 1000 ∧ "bbn1abc".data = "bbn1abc".data ∧
      "xion1abc".data = "xion1abc".data ∧ "xion1j0".data = "xion1j0".data :=
  constructDynamicInstruction_injective 1000 1000 "bbn1abc".data "xion1abc".data
    "xion1j0".data "bbn1abc".data "xion1abc".data "xion1j0".data (by norm_num) (by norm_num)
    (by decide) (by decide) (by decide) (by decide) (by decide) (by decide) rfl

/-- C13 (counterexample): the amounts `2^53` and `2^53 + 1`, both below `2^256`, give the
same payload with the same addresses: `Number` rounds both to `2^53`. -/
theorem constructDynamicInstruction_collision :
    2 ^ 53 < 2 ^ 256 ∧ 2 ^ 53 + 1 < 2 ^ 256 ∧ 2 ^ 53 ≠ 2 ^ 53 + 1 ∧
      constructDynamicInstruction (2 ^ 53) "a".data "b".data "c".data =
        constructDynamicInstruction (2 ^ 53 + 1) "a".data "b".data "c".data := by
  have hN : numberOfNat (2 ^ 53 + 1) = numberOfNat (2 ^ 53) := by decide
  refine ⟨by norm_num, by norm_num, by norm_num, ?_⟩
  rw [constructDynamicInstruction_eq, constructDynamicInstruction_eq]
  unfold decimalToHex
  rw [hN]

/-! ## Lemmas on decimal digits -/

theorem toDigitsCore_append_acc (b fuel n : Nat) (acc : List Char) :
    Nat.toDigitsCore b fuel n acc = Nat.toDigitsCore b fuel n [] ++ acc := by
  induction fuel generalizing n acc with
  | zero => simp [Nat.toDigitsCore]
  | succ f ih =>
    simp only [Nat.toDigitsCore]
    split
    · simp
    · rw [ih (n / b) (_ :: acc), ih (n / b) [_]]; simp

theorem toDigitsCore_fuel (b : Nat) (hb : 2 ≤ b) (fuel1 fuel2 n : Nat) (h1 : n < fuel1)
    (h2 : n < fuel2) : Nat.toDigitsCore b fuel1 n [] = Nat.toDigitsCore b fuel2 n [] := by
  induction fuel1 generalizing fuel2 n with
  | zero => omega
  | succ f1 ih =>
    cases fuel2 with
    | zero => omega
    | succ f2 =>
      simp only [Nat.toDigitsCore]
      split
      · rfl
      · rename_i h0
        have hpos : 0 < n := by
          rcases Nat.eq_zero_or_pos n with h | h
          · subst h; simp at h0
          · exact h
        have hlt : n / b < n := Nat.div_lt_self hpos (by omega)
        rw [toDigitsCore_append_acc b f1, toDigitsCore_append_acc b f2,
          ih f2 (n / b) (by omega) (by omega)]

theorem toDigits_mul_base (b : Nat) (hb : 2 ≤ b) (n : Nat) (hn : 0 < n) :
    Nat.toDigits b (n * b) = Nat.toDigits b n ++ ['0'] := by
  have hdiv : n * b / b = n := Nat.mul_div_cancel n (by omega)
  have hmod : n * b % b = 0 := Nat.mul_mod_left n b
  have hlt : n < n * b := by
    have : n * 2 ≤ n * b := Nat.mul_le_mul_left n hb
    omega
  unfold Nat.toDigits
  rw [Nat.toDigitsCore]
  simp only [hdiv, hmod]
  rw [if_neg (by omega), toDigitsCore_append_acc,
    toDigitsCore_fuel b hb (n * b) (n + 1) n hlt (by omega)]
  rfl

theorem toDigits_mul_pow (b : Nat) (hb : 2 ≤ b) (n j : Nat) (hn : 0 < n) :
    Nat.toDigits b (n * b ^ j) = Nat.toDigits b n ++ List.replicate j '0' := by
  induction j with
  | zero => simp
  | succ j ih =>
    have hpos : 0 < n * b ^ j := Nat.mul_pos hn (Nat.pos_pow_of_pos j (by omega))
    rw [Nat.pow_succ, ← Nat.mul_assoc, toDigits_mul_base b hb _ hpos, ih,
      List.replicate_succ', List.append_assoc]

/-! ## Lemmas on binary64 rounding of integers -/

theorem floorLog2Ratio_one (x : Nat) (hx : 0 < x) :
    floorLog2Ratio x 1 = (Nat.log2 x : Int) := by
  have hone : floorLog2 1 = 0 := rfl
  have hlo : 2 ^ Nat.log2 x ≤ x := Nat.log2_self_le (by omega)
  unfold floorLog2Ratio
  simp only [hone, floorLog2_eq, Nat.zero_le, if_true, Nat.sub_zero, Nat.one_mul, hlo]
  simp

theorem roundBinary64_of_lt (x : Nat) (hx : 0 < x) (hlt : x < 2 ^ 53) :
    ∃ t, roundBinary64 false x 1 = JSNumber.finite false (x * 2 ^ t) (2 ^ t) := by
  have hL : Nat.log2 x < 53 := (Nat.log2_lt (by omega)).2 hlt
  unfold roundBinary64
  rw [if_neg (by omega), floorLog2Ratio_one x hx]
  simp only []
  have hu : max ((Nat.log2 x : Int) - 52) (-1074) = (Nat.log2 x : Int) - 52 := by omega
  rw [hu]
  rcases Nat.lt_or_ge (Nat.log2 x) 52 with h | h
  · have hneg : (Nat.log2 x : Int) - 52 < 0 := by omega
    simp only [hneg, if_true, Nat.div_one, Nat.mod_one]
    exact ⟨(-((Nat.log2 x : Int) - 52)).toNat, by simp⟩
  · have h52 : Nat.log2 x = 52 := by omega
    refine ⟨0, ?_⟩
    rw [h52]
    have hlt2 : x * 2 ^ 0 < 2 ^ 1024 := by
      have : (2 : Nat) ^ 53 < 2 ^ 1024 := by norm_num
      omega
    have hnn : ¬ (((52 : Nat) : Int) - 52 < 0) := by omega
    have hz : (((52 : Nat) : Int) - 52).toNat = 0 := by decide
    simp only [hnn, if_false, hz, Nat.one_mul, Nat.pow_zero, Nat.div_one, Nat.mod_one,
      Nat.mul_zero, Nat.lt_one_iff, true_or, if_true]
    rw [if_pos (by simpa using hlt2)]

theorem roundBinary64_of_ge (x : Nat) (hge : 2 ^ 53 ≤ x) :
    (∃ y, roundBinary64 false x 1 = JSNumber.finite false y 1 ∧ 2 ^ 53 ≤ y) ∨
      roundBinary64 false x 1 = JSNumber.infinity false := by
  have hx : 0 < x := by
    have : 0 < 2 ^ 53 := Nat.two_pow_pos _
    omega
  have hlo : 2 ^ Nat.log2 x ≤ x := Nat.log2_self_le (by omega)
  have hL : 53 ≤ Nat.log2 x := by
    by_contra hc
    have h1 : Nat.log2 x + 1 ≤ 53 := by omega
    have h2 := Nat.pow_le_pow_right (by decide : 0 < 2) h1
    have h3 : x < 2 ^ (Nat.log2 x + 1) := Nat.lt_log2_self
    omega
  unfold roundBinary64
  rw [if_neg (by omega), floorLog2Ratio_one x hx]
  simp only []
  have hu : max ((Nat.log2 x : Int) - 52) (-1074) = ((Nat.log2 x - 52 : Nat) : Int) := by omega
  rw [hu]
  have hnn : ¬ (((Nat.log2 x - 52 : Nat) : Int) < 0) := by omega
  simp only [hnn, if_false, Int.toNat_ofNat, Nat.one_mul]
  generalize hm : (if 2 * (x % 2 ^ (Nat.log2 x - 52)) < 2 ^ (Nat.log2 x - 52) ∨
      2 * (x % 2 ^ (Nat.log2 x - 52)) = 2 ^ (Nat.log2 x - 52) ∧
        x / 2 ^ (Nat.log2 x - 52) % 2 = 0
      then x / 2 ^ (Nat.log2 x - 52) else x / 2 ^ (Nat.log2 x - 52) + 1) = m
  have hq : 2 ^ 52 ≤ x / 2 ^ (Nat.log2 x - 52) := by
    rw [Nat.le_div_iff_mul_le (Nat.two_pow_pos _), ← Nat.pow_add]
    have : 52 + (Nat.log2 x - 52) = Nat.log2 x := by omega
    rw [this]; exact hlo
  have hmq : 2 ^ 52 ≤ m := by
    rw [← hm]; split <;> omega
  have hbig : 2 ^ 53 ≤ m * 2 ^ (Nat.log2 x - 52) := by
    have h1 : 2 ^ 52 * 2 ^ 1 ≤ m * 2 ^ (Nat.log2 x - 52) :=
      Nat.mul_le_mul hmq (Nat.pow_le_pow_right (by decide) (by omega))
    have h2 : (2 : Nat) ^ 52 * 2 ^ 1 = 2 ^ 53 := by norm_num
    omega
  split
  · exact Or.inl ⟨_, rfl, hbig⟩
  · exact Or.inr rfl

theorem readsBack_iff (v s j : Nat) (hv : v < 2 ^ 53) :
    readsBack v s j = true ↔ s * 10 ^ j = v := by
  unfold readsBack
  rcases Nat.eq_zero_or_pos (s * 10 ^ j) with h0 | hpos
  · rw [h0]
    have : roundBinary64 false 0 1 = JSNumber.finite false 0 1 := rfl
    rw [this]
    simp only [Nat.mul_one, decide_eq_true_eq]
  · rcases Nat.lt_or_ge (s * 10 ^ j) (2 ^ 53) with hlt | hge
    · obtain ⟨t, ht⟩ := roundBinary64_of_lt _ hpos hlt
      rw [ht]
      simp only [decide_eq_true_eq]
      have h2 : 0 < 2 ^ t := Nat.two_pow_pos t
      constructor
      · intro h; exact Nat.eq_of_mul_eq_mul_right h2 h
      · intro h; rw [h]
    · rcases roundBinary64_of_ge _ hge with ⟨y, hy, hyge⟩ | hinf
      · rw [hy]
        simp only [Nat.mul_one, decide_eq_true_eq]
        constructor <;> intro h <;> omega
      · rw [hinf]
        simp only [Bool.false_eq_true, false_iff]
        omega

/-! ## Lemmas on `Number::toString` -/

theorem shortestLoop_exact (v len fuel k : Nat) (hv : v < 2 ^ 53) :
    ∃ j, shortestLoop v len fuel k = (v / 10 ^ j, len) ∧ v / 10 ^ j * 10 ^ j = v := by
  induction fuel generalizing k with
  | zero => exact ⟨0, by simp [shortestLoop], by simp⟩
  | succ f ih =>
    have hp : 0 < 10 ^ (len - k) := Nat.pos_pow_of_pos _ (by decide)
    have hup : readsBack v (v / 10 ^ (len - k) + 1) (len - k) = false := by
      cases h : readsBack v (v / 10 ^ (len - k) + 1) (len - k) with
      | false => rfl
      | true =>
        have h1 := (readsBack_iff v _ _ hv).1 h
        have h2 : v < 10 ^ (len - k) * (v / 10 ^ (len - k) + 1) := Nat.lt_mul_div_succ v hp
        rw [Nat.mul_comm] at h2
        omega
    simp only [shortestLoop, hup, Bool.false_eq_true, and_false, if_false]
    cases hlow : readsBack v (v / 10 ^ (len - k)) (len - k) with
    | true =>
      exact ⟨len - k, by simp, (readsBack_iff v _ _ hv).1 hlow⟩
    | false =>
      simpa using ih (k + 1)

theorem integralDigits_exact (v : Nat) (hpos : 0 < v) (hv : v < 2 ^ 53) :
    integralDigits v = Nat.toDigits 10 v := by
  obtain ⟨j, hj, hmul⟩ := shortestLoop_exact v (Nat.toDigits 10 v).length
    (Nat.toDigits 10 v).length 1 hv
  have hs : 0 < v / 10 ^ j := by
    rcases Nat.eq_zero_or_pos (v / 10 ^ j) with h | h
    · rw [h] at hmul; omega
    · exact h
  have hdig := toDigits_mul_pow 10 (by decide) (v / 10 ^ j) j hs
  rw [hmul] at hdig
  have hlen : (Nat.toDigits 10 v).length ≤ 16 :=
    Nat.toDigitsCore_length 10 (by decide) (v + 1) v 16
      (by have : (2 : Nat) ^ 53 < 10 ^ 16 := by norm_num
          omega) (by decide)
  have hlen2 : (Nat.toDigits 10 v).length = (Nat.toDigits 10 (v / 10 ^ j)).length + j := by
    rw [hdig, List.length_append, List.length_replicate]
  unfold integralDigits
  simp only [hj]
  rw [if_pos (by omega)]
  have : (Nat.toDigits 10 v).length - (Nat.toDigits 10 (v / 10 ^ j)).length = j := by omega
  rw [this, ← hdig]

/-! ## Claims on the transaction builder -/

/-- C12 (amended): for every current time `now` and timeout offset in milliseconds with
`0 < now + offset ≤ 2^53` (the range on which the Number sum and its `toString` are
exact), the `timeout_timestamp` of `executeContractSendTransaction` is the decimal string
of the integer `(now + offset) * 1000000`: the decimal string of the millisecond value
with six zero digits appended. -/
theorem timeout_timestamp_nanoseconds (now : Nat) (offset : Int)
    (hpos : 0 < (now : Int) + offset) (hle : (now : Int) + offset ≤ 2 ^ 53) :
    timeout_timestamp now (some offset) =
        Nat.toDigits 10 (((now : Int) + offset).toNat * 1000000) ∧
      timeout_timestamp now (some offset) =
        Nat.toDigits 10 ((now : Int) + offset).toNat ++ "000000".data := by
  obtain ⟨s, hs⟩ : ∃ s : Nat, (now : Int) + offset = (s : Int) := ⟨_, (Int.toNat_of_nonneg (by omega)).symm⟩
  have hs0 : 0 < s := by omega
  have hs53 : s ≤ 2 ^ 53 := by
    have : (s : Int) ≤ 2 ^ 53 := by rw [← hs]; exact hle
    exact_mod_cast this
  have hnum : numberToString (addIntegral now offset) = Nat.toDigits 10 s := by
    unfold addIntegral
    rw [hs]
    simp only [Int.natAbs_ofNat, numberOfNat_of_le s hs53]
    have hneg : decide ((s : Int) < 0) = false := by
      simp
    rw [hneg]
    obtain ⟨s', rfl⟩ : ∃ s', s = s' + 1 := ⟨s - 1, by omega⟩
    simp only [numberToString]
    rcases Nat.lt_or_ge (s' + 1) (2 ^ 53) with h | h
    · exact integralDigits_exact _ hs0 h
    · have : s' + 1 = 2 ^ 53 := by omega
      rw [this]
      decide
  have hzeros : "000000".data = List.replicate 6 '0' := rfl
  have hmul := toDigits_mul_pow 10 (by decide) s 6 hs0
  have h6 : (10 : Nat) ^ 6 = 1000000 := by norm_num
  rw [h6] at hmul
  have hmain : timeout_timestamp now (some offset) = Nat.toDigits 10 s ++ "000000".data := by
    unfold timeout_timestamp
    simp only [Option.getD_some, hnum]
  rw [hs, Int.toNat_ofNat]
  exact ⟨by rw [hmain, hmul, hzeros], hmain⟩

/-- Witness of C12 (amended) at a current time of 1700000000000 ms and the 72-hour
offset of the planner. -/
theorem timeout_timestamp_nanoseconds_witness :
    timeout_timestamp 1700000000000 (some 259200000) =
      Nat.toDigits 10 (((1700000000000 : Nat) + (259200000 : Int)).toNat * 1000000) :=
  (timeout_timestamp_nanoseconds 1700000000000 259200000 (by decide) (by decide)).1

/-- C12 (counterexample): with `now = 1700000000000` and the offset `9005499254740993`,
both exact Numbers, `now + offset = 2^53 + 1` is a positive integer, yet the sum is
rounded to `2^53` and the timestamp is `"9007199254740992000000"`, not the decimal
string `"9007199254740993000000"` of `(now + offset) * 1000000`. -/
theorem timeout_timestamp_rounded :
    timeout_timestamp 1700000000000 (some 9005499254740993) =
        "9007199254740992000000".data ∧
      Nat.toDigits 10 (((1700000000000 : Nat) + (9005499254740993 : Int)).toNat * 1000000) =
        "9007199254740993000000".data := by
  refine ⟨by decide, by decide⟩

end Send
